import Mathlib

/-!
Verification of the Min-Cost-Flow repository (src/lib/push_relabel.py and
src/lib/cost_scaling.py) against its natural-language specification.

The two Python classes are shallowly embedded: the dense `V x V` Python list
matrices become `List (List Int)`, the `collections.defaultdict(list)`
adjacency maps become total functions `Nat -> List Nat` whose default value is
the empty list, Python integers become `Int`, and the floating-point
`epsilon` / `potential` values of the cost-scaling engine become `Rat`
(all `epsilon` values actually produced with the default `alpha = 2` are
dyadic, so binary floating point computes them exactly and `Rat` is a
faithful model).  Python exceptions (IndexError from an out-of-range matrix
assignment, TypeError from calling a function with missing positional
arguments) are modelled by an explicit error value returned next to the
mutated object state, because a raising method still leaves its `self`
mutations behind.
-/

/-- Python exceptions that the embedded code can raise. -/
inductive PyErr where
  | indexError : PyErr
  | typeError : PyErr
deriving DecidableEq, Repr

/-- `l[i]` for a Python list read at a position that is known to be in
range; out-of-range reads return the junk default `d` (never exercised by
the theorems, which carry range hypotheses). -/
def lgetD {α : Type} (l : List α) (i : Nat) (d : α) : α := l.getD i d

/-- `l[i] = x` for a Python list assignment; `List.set` silently ignores an
out-of-range index, matching the fact that the embedded code only assigns
in range. -/
def lsetD {α : Type} (l : List α) (i : Nat) (x : α) : List α := l.set i x

/-- Read entry `(i, j)` of a dense Python matrix (list of row lists). -/
def mget (m : List (List Int)) (i j : Nat) : Int := lgetD (lgetD m i []) j 0

/-- Write entry `(i, j)` of a dense Python matrix. -/
def mset (m : List (List Int)) (i j : Nat) (x : Int) : List (List Int) :=
  lsetD m i (lsetD (lgetD m i []) j x)

/-- A Python row vector of `n` zeros, `[0] * n`. -/
def zeros (n : Nat) : List Int := List.replicate n 0

/-- A Python `n x n` zero matrix, `[[0] * n for _ in range(n)]`. -/
def zeroM (n : Nat) : List (List Int) := List.replicate n (zeros n)

/-- `sum(m[u])`: the sum of row `u` of a matrix. -/
def rowSum (m : List (List Int)) (u : Nat) : Int := (lgetD m u []).sum

/-- Well-formedness of a dense matrix: `n` rows, each of length `n`. -/
def WFm (m : List (List Int)) (n : Nat) : Prop :=
  m.length = n ∧ ∀ r ∈ m, r.length = n

instance (m : List (List Int)) (n : Nat) : Decidable (WFm m n) := by
  unfold WFm; infer_instance

/-- Skew symmetry of a flow matrix on the vertex range `0..n-1`:
`flow[v][u] = -flow[u][v]`. -/
def Skew (m : List (List Int)) (n : Nat) : Prop :=
  ∀ u, u < n → ∀ v, v < n → mget m v u = -(mget m u v)

instance (m : List (List Int)) (n : Nat) : Decidable (Skew m n) := by
  unfold Skew; infer_instance

namespace PushRelabel

/-- State of the `PushRelabel` object from push_relabel.py: the fields set
up by `__init__` (lines 4-29). -/
structure State where
  V : Nat
  excess : List Int
  height : List Int
  flow : List (List Int)
  capacity : List (List Int)
  graph : Nat → List Nat

/-- `PushRelabel(num_vertices)`: the freshly constructed object. -/
def init (n : Nat) : State :=
  { V := n
    excess := zeros n
    height := zeros n
    flow := zeroM n
    capacity := zeroM n
    graph := fun _ => [] }

/-- `add_edge(u, v, cap)` (push_relabel.py lines 31-41).  The Python body
first appends `v` to `graph[u]` (a defaultdict access that always succeeds)
and then assigns `capacity[u][v] = cap`, which raises IndexError when `u`
or `v` is outside `0..V-1`; there is no validation of self-loops, duplicate
arcs or negative capacities.  The returned pair is (raised exception if
any, the object state afterwards). -/
def add_edge (st : State) (u v : Nat) (cap : Int) : Option PyErr × State :=
  let st := { st with graph := fun w => if w = u then st.graph u ++ [v] else st.graph w }
  if u < st.V ∧ v < st.V then
    (none, { st with capacity := mset st.capacity u v cap })
  else
    (some PyErr.indexError, st)

/-- `add_edge` over a list of `(u, v, cap)` triples, ignoring raised
exceptions the way a driver with in-range arcs never sees them. -/
def add_edges (st : State) (es : List (Nat × Nat × Int)) : State :=
  es.foldl (fun st e => (add_edge st e.1 e.2.1 e.2.2).2) st

/-- The body of the `for v in self.graph[s]` loop of
`initialize_preflow(s)` (push_relabel.py lines 53-63): saturate the arc
`(s, v)`, mirror the negative flow on `(v, s)`, assign (not increment)
`excess[v] = capacity[s][v]` and decrement `excess[s]`. -/
def initStep (s : Nat) (st : State) (v : Nat) : State :=
  let st := { st with flow := mset st.flow s v (mget st.capacity s v) }
  let st := { st with flow := mset st.flow v s (-(mget st.capacity s v)) }
  let st := { st with excess := lsetD st.excess v (mget st.capacity s v) }
  { st with excess := lsetD st.excess s (lgetD st.excess s 0 - mget st.capacity s v) }

/-- `initialize_preflow(s)` (push_relabel.py lines 43-63): set
`height[s] = V`, then run the saturation loop over `graph[s]`. -/
def init_preflow (st : State) (s : Nat) : State :=
  let st := { st with height := lsetD st.height s (st.V : Int) }
  (st.graph s).foldl (initStep s) st

/-- `push(u, v)` (push_relabel.py lines 65-86): send
`delta = min(excess[u], capacity[u][v] - flow[u][v])` along `(u, v)`,
updating the mirrored flow entries and both excesses. -/
def push (st : State) (u v : Nat) : State :=
  let residual_capacity := mget st.capacity u v - mget st.flow u v
  let delta := min (lgetD st.excess u 0) residual_capacity
  let st := { st with flow := mset st.flow u v (mget st.flow u v + delta) }
  let st := { st with flow := mset st.flow v u (mget st.flow v u - delta) }
  let st := { st with excess := lsetD st.excess u (lgetD st.excess u 0 - delta) }
  { st with excess := lsetD st.excess v (lgetD st.excess v 0 + delta) }

/-- The local variable `delta` of `push(u, v)`:
`min(excess[u], capacity[u][v] - flow[u][v])`. -/
def pushDelta (st : State) (u v : Nat) : Int :=
  min (lgetD st.excess u 0) (mget st.capacity u v - mget st.flow u v)

/-- `relabel(u)` (push_relabel.py lines 88-104): `min_height` is the
minimum height over all `v in range(V)` with positive residual capacity
(`float('inf')` modelled by `Option`); when some such `v` exists,
`height[u] = min_height + 1`. -/
def relabel (st : State) (u : Nat) : State :=
  let min_height :=
    (List.range st.V).foldl
      (fun acc v =>
        if 0 < mget st.capacity u v - mget st.flow u v then
          match acc with
          | none => some (lgetD st.height v 0)
          | some m => some (min m (lgetD st.height v 0))
        else acc)
      none
  match min_height with
  | none => st
  | some m => { st with height := lsetD st.height u (m + 1) }

/-- The inner scan of `max_flow` (lines 133-139): the first
`v in range(V)` with positive residual capacity and
`height[u] == height[v] + 1`. -/
def findPush (st : State) (u : Nat) : Option Nat :=
  (List.range st.V).find? fun v =>
    decide (0 < mget st.capacity u v - mget st.flow u v) &&
    decide (lgetD st.height u 0 = lgetD st.height v 0 + 1)

/-- One `u` step of the main loop of `max_flow` (lines 126-146): skip
`s` and `t`; if `excess[u] > 0` mark an active node found and either push
along the first admissible arc or relabel `u`. -/
def dischargeStep (s t : Nat) (st : State) (u : Nat) : Bool × State :=
  if u = s ∨ u = t then (false, st)
  else if 0 < lgetD st.excess u 0 then
    match findPush st u with
    | some v => (true, push st u v)
    | none => (true, relabel st u)
  else (false, st)

/-- One full sweep `for u in range(V)` of the main loop of `max_flow`,
accumulating the `active_node_found` flag. -/
def pass (s t : Nat) (st : State) : Bool × State :=
  (List.range st.V).foldl
    (fun acc u =>
      let r := dischargeStep s t acc.2 u
      (acc.1 || r.1, r.2))
    (false, st)

/-- The `while active_node_found` loop of `max_flow` (lines 120-146), with
explicit fuel; `none` means the fuel ran out before the loop exited. -/
def mfLoop (s t : Nat) : Nat → State → Option State
  | 0, _ => none
  | fuel + 1, st =>
    let r := pass s t st
    if r.1 then mfLoop s t fuel r.2 else some r.2

/-- `max_flow(s, t)` (push_relabel.py lines 106-149): install the preflow,
run the main loop, and return `excess[t]` together with the final object
state. -/
def max_flow (st : State) (s t : Nat) (fuel : Nat) : Option (Int × State) :=
  let st := init_preflow st s
  (mfLoop s t fuel st).map fun stF => (lgetD stF.excess t 0, stF)

/-- Well-formedness of an engine state: all vectors and matrices sized
`V`. -/
def WF (st : State) : Prop :=
  st.excess.length = st.V ∧ st.height.length = st.V ∧
  WFm st.flow st.V ∧ WFm st.capacity st.V

instance (st : State) : Decidable (WF st) := by
  unfold WF; infer_instance

/-- Conservation invariant of the main loop, relative to the source `s`:
the state is well-formed, capacities are nonnegative, and away from `s`
the recorded excess of each vertex is the negated sum of its flow row and
is nonnegative. -/
def consInv (s : Nat) (st : State) : Prop :=
  WF st ∧
  (∀ a b, a < st.V → b < st.V → 0 ≤ mget st.capacity a b) ∧
  (∀ u, u < st.V → u ≠ s → lgetD st.excess u 0 = -(rowSum st.flow u)) ∧
  (∀ u, u < st.V → u ≠ s → 0 ≤ lgetD st.excess u 0)

/-- Capacity-bound invariant of the main loop: the state is well-formed,
capacities are nonnegative, every flow entry is bounded above by its
capacity, and the flow matrix is skew symmetric. -/
def capInv (st : State) : Prop :=
  WF st ∧
  (∀ a b, a < st.V → b < st.V → 0 ≤ mget st.capacity a b) ∧
  (∀ a b, a < st.V → b < st.V → mget st.flow a b ≤ mget st.capacity a b) ∧
  Skew st.flow st.V

/-- Invariant carried through the saturation loop of
`initialize_preflow(s)`: sizes and capacities are fixed, the flow of a
vertex other than `s` is concentrated in column `s` and balanced by its
recorded excess, all excesses away from `s` are nonnegative, flow respects
capacity, and (when there is no capacitated self-loop at `s`) the flow
matrix stays skew symmetric. -/
def initInv (s V : Nat) (cap : List (List Int)) (st : State) : Prop :=
  st.V = V ∧ st.capacity = cap ∧ WF st ∧
  (∀ u w, u < V → u ≠ s → w < V → w ≠ s → mget st.flow u w = 0) ∧
  (∀ u, u < V → u ≠ s → lgetD st.excess u 0 = -(mget st.flow u s)) ∧
  (∀ u, u < V → u ≠ s → 0 ≤ lgetD st.excess u 0) ∧
  (∀ a b, a < V → b < V → mget st.flow a b ≤ mget st.capacity a b) ∧
  (mget cap s s = 0 → Skew st.flow V)

/-- The post-state predicate of claim C3 on the optional result of
`max_flow`: when the call returns, the returned value is the final
`excess[t]` and every vertex other than `s` and `t` has a zero flow row
sum (conservation). -/
def C3post (V s t : Nat) : Option (Int × State) → Prop
  | none => True
  | some p =>
    p.1 = lgetD p.2.excess t 0 ∧
    ∀ u, u < V → u ≠ s → u ≠ t → rowSum p.2.flow u = 0

/-- The post-state predicate of the amended claim C4 on the optional
result of `max_flow`: when the call returns, every flow entry is at most
its capacity, the flow matrix is skew symmetric, and hence every flow
entry is at least the negated capacity of the antiparallel pair. -/
def C4post (V : Nat) : Option (Int × State) → Prop
  | none => True
  | some p =>
    ∀ u v, u < V → v < V →
      mget p.2.flow u v ≤ mget p.2.capacity u v ∧
      mget p.2.flow v u = -(mget p.2.flow u v) ∧
      -(mget p.2.capacity v u) ≤ mget p.2.flow u v

end PushRelabel

/-- Read entry `i` of the rational `potential` vector. -/
def pget (l : List Rat) (i : Nat) : Rat := lgetD l i 0

namespace MinCostPushRelabel

/-- State of the `MinCostPushRelabel` object from cost_scaling.py: the
fields set up by `__init__` (lines 9-33).  `potential` starts as a Python
int list but is overwritten with floats by `relabel`; all values arising
with the default `alpha = 2` are dyadic rationals, so `Rat` models the
float arithmetic exactly. -/
structure State where
  V : Nat
  graph : Nat → List Nat
  capacity : List (List Int)
  flow : List (List Int)
  cost : List (List Int)
  demand : List Nat
  supply : List Nat
  excess : List Int
  potential : List Rat

/-- `MinCostPushRelabel(num_vertices)`: the freshly constructed object. -/
def init (n : Nat) : State :=
  { V := n
    graph := fun _ => []
    capacity := zeroM n
    flow := zeroM n
    cost := zeroM n
    demand := []
    supply := []
    excess := zeros n
    potential := List.replicate n 0 }

/-- `add_edge(u, v, cap, cost)` (cost_scaling.py lines 35-50): append `v`
to `graph[u]` and `u` to `graph[v]` (reverse arcs), then assign
`capacity[u][v]`, `cost[u][v]` and `cost[v][u] = -cost[u][v]`; the matrix
assignments raise IndexError out of range, after the adjacency appends
already happened. -/
def add_edge (st : State) (u v : Nat) (cap c : Int) : Option PyErr × State :=
  let st := { st with graph := fun w => if w = u then st.graph u ++ [v] else st.graph w }
  let st := { st with graph := fun w => if w = v then st.graph v ++ [u] else st.graph w }
  if u < st.V ∧ v < st.V then
    (none,
      { st with
        capacity := mset st.capacity u v cap
        cost := mset (mset st.cost u v c) v u (-c) })
  else
    (some PyErr.indexError, st)

/-- `add_edge` over a list of `(u, v, cap, cost)` tuples. -/
def add_edges (st : State) (es : List (Nat × Nat × Int × Int)) : State :=
  es.foldl (fun st e => (add_edge st e.1 e.2.1 e.2.2.1 e.2.2.2).2) st

/-- `set_supply(u, supply)` (cost_scaling.py lines 52-68): positive values
register a supply node, negative values a demand node, and a zero value
only prints the report "Valor de oferta deve ser diferente de zero".
The boolean of the result records whether that report was printed. -/
def set_supply (st : State) (u : Nat) (sup : Int) : State × Bool :=
  if sup > 0 then
    ({ st with excess := lsetD st.excess u sup, supply := st.supply ++ [u] }, false)
  else if sup < 0 then
    ({ st with excess := lsetD st.excess u sup, demand := st.demand ++ [u] }, false)
  else
    (st, true)

/-- `_reduced_cost(u, v)` (cost_scaling.py lines 70-75):
`cost[u][v] + potential[u] - potential[v]`, an int/float mix in Python,
hence rational here. -/
def reduced_cost (st : State) (u v : Nat) : Rat :=
  (mget st.cost u v : Rat) + pget st.potential u - pget st.potential v

/-- `push(u, v)` (cost_scaling.py lines 77-89): identical flow/excess
update to the max-flow engine's push. -/
def push (st : State) (u v : Nat) : State :=
  let residual_capacity := mget st.capacity u v - mget st.flow u v
  let delta := min (lgetD st.excess u 0) residual_capacity
  let st := { st with flow := mset st.flow u v (mget st.flow u v + delta) }
  let st := { st with flow := mset st.flow v u (mget st.flow v u - delta) }
  let st := { st with excess := lsetD st.excess u (lgetD st.excess u 0 - delta) }
  { st with excess := lsetD st.excess v (lgetD st.excess v 0 + delta) }

/-- The local variable `delta` of the min-cost `push(u, v)`. -/
def pushDelta (st : State) (u v : Nat) : Int :=
  min (lgetD st.excess u 0) (mget st.capacity u v - mget st.flow u v)

/-- The candidate value `potential[v] - cost[u][v]` scanned by
`relabel(u, epsilon)` (cost_scaling.py line 107). -/
def relabelCand (st : State) (u v : Nat) : Rat :=
  pget st.potential v - (mget st.cost u v : Rat)

/-- One step of the `for v in self.graph[u]` scan of `relabel(u, epsilon)`
(cost_scaling.py lines 104-107): take the candidate into the running
minimum when the arc has positive residual capacity (`float('inf')`
modelled by `Option`). -/
def relabelStep (st : State) (u : Nat) (acc : Option Rat) (v : Nat) : Option Rat :=
  if 0 < mget st.capacity u v - mget st.flow u v then
    match acc with
    | none => some (relabelCand st u v)
    | some m => some (min m (relabelCand st u v))
  else acc

/-- `relabel(u, epsilon)` (cost_scaling.py lines 91-111): the minimum of
`potential[v] - cost[u][v]` over neighbors `v in graph[u]` with positive
residual capacity; when some such neighbor exists,
`potential[u] = min_potential_diff - epsilon`. -/
def relabel (st : State) (u : Nat) (epsilon : Rat) : State :=
  let min_potential_diff := (st.graph u).foldl (relabelStep st u) none
  match min_potential_diff with
  | none => st
  | some m => { st with potential := lsetD st.potential u (m - epsilon) }

/-- The local variable `delta` of step 1 of `refine(epsilon)`: the full
residual capacity `capacity[u][v] - flow[u][v]` of the arc. -/
def satDelta (st : State) (u v : Nat) : Int :=
  mget st.capacity u v - mget st.flow u v

/-- The body of the inner loop of step 1 of `refine(epsilon)`
(cost_scaling.py lines 121-128): if the arc `(u, v)` has negative reduced
cost and positive residual capacity, push its full residual capacity
(`delta` is computed once, before the flow entries change). -/
def satStep (u : Nat) (st : State) (v : Nat) : State :=
  if reduced_cost st u v < 0 then
    if 0 < satDelta st u v then
      let f1 := mset st.flow u v (mget st.flow u v + satDelta st u v)
      let f2 := mset f1 v u (mget f1 v u - satDelta st u v)
      let e1 := lsetD st.excess u (lgetD st.excess u 0 - satDelta st u v)
      let e2 := lsetD e1 v (lgetD e1 v 0 + satDelta st u v)
      { st with flow := f2, excess := e2 }
    else st
  else st

/-- Step 1 of `refine(epsilon)` (cost_scaling.py lines 119-128): saturate
every arc with negative reduced cost and positive residual capacity,
creating a preflow. -/
def refineSaturate (st : State) : State :=
  (List.range st.V).foldl (fun st u => (st.graph u).foldl (satStep u) st) st

/-- The body of the inner loop of the cost-scaling step 1 of
`min_cost_flow` (cost_scaling.py lines 169-176): `cost[u][v] *= V` and
update the running maximum absolute scaled cost. -/
def scaleStep (u : Nat) (acc : State × Int) (v : Nat) : State × Int :=
  let st := acc.1
  let st := { st with cost := mset st.cost u v (mget st.cost u v * (st.V : Int)) }
  let m := if acc.2 < |mget st.cost u v| then |mget st.cost u v| else acc.2
  (st, m)

/-- The cost-scaling step 1 of `min_cost_flow` (cost_scaling.py lines
164-176): `cost[u][v] *= V` for every `u in range(V)`, `v in graph[u]`,
tracking the running maximum absolute scaled cost. -/
def scaleCosts (st : State) : State × Int :=
  (List.range st.V).foldl
    (fun acc u => (acc.1.graph u).foldl (scaleStep u) acc)
    (st, 0)

/-- The auxiliary max-flow graph of `min_cost_flow` step 3 (cost_scaling.py
lines 182-196): a `PushRelabel(V + 2)` engine holding every original
positive-capacity arc, arcs from the artificial source `V` to each supply
node, and arcs from each demand node to the artificial sink `V + 1`. -/
def buildAux (st : State) : PushRelabel.State :=
  let g := PushRelabel.init (st.V + 2)
  let source := st.V
  let sink := st.V + 1
  let g :=
    ((List.range st.V).flatMap fun u => (List.range st.V).map fun v => (u, v)).foldl
      (fun g p =>
        if 0 < mget st.capacity p.1 p.2 then
          (PushRelabel.add_edge g p.1 p.2 (mget st.capacity p.1 p.2)).2
        else g)
      g
  let g := st.supply.foldl (fun g v => (PushRelabel.add_edge g source v |lgetD st.excess v 0|).2) g
  st.demand.foldl (fun g u => (PushRelabel.add_edge g u sink |lgetD st.excess u 0|).2) g

/-- `min_cost_flow(alpha = 2)` (cost_scaling.py lines 154-220).  After
scaling the costs in place, computing the initial `epsilon` and building
the auxiliary graph, the source executes `g.max_flow();` — but
`PushRelabel.max_flow` requires the two positional arguments `s` and `t`,
so Python raises `TypeError` at that line on every invocation and the whole
remainder of the method (feasibility check, circulation copy-back,
`refine` loop, final cost computation) is unreachable.  The result is the
raised exception together with the object state it leaves behind (the
costs are left scaled; nothing else of `self` was mutated yet). -/
def min_cost_flow (st : State) (alpha : Rat) : Except PyErr (Option (Rat × List (List Int))) × State :=
  let scaling_factor : Int := (st.V : Int)
  let p := scaleCosts st
  let st := p.1
  let epsilon : Rat := (p.2 : Rat)
  let g := buildAux st
  -- g.max_flow()  : missing the required positional arguments s, t
  (Except.error PyErr.typeError, st)

/-- Well-formedness of an engine state: all vectors and matrices sized
`V`. -/
def WF (st : State) : Prop :=
  st.excess.length = st.V ∧ st.potential.length = st.V ∧
  WFm st.flow st.V ∧ WFm st.capacity st.V ∧ WFm st.cost st.V

instance (st : State) : Decidable (WF st) := by
  unfold WF; infer_instance

end MinCostPushRelabel

/-! ### Concrete instances used in the claims -/

/-- Scenario 1 of the spec: the 6-vertex max-flow example graph built by
the driver of push_relabel.py (lines 151-180). -/
def scenario1 : PushRelabel.State :=
  PushRelabel.add_edges (PushRelabel.init 6)
    [(0, 1, 16), (0, 2, 13), (1, 2, 10), (1, 3, 12), (2, 1, 4),
     (2, 4, 14), (3, 2, 9), (3, 5, 20), (4, 3, 7), (4, 5, 4)]

/-- A 3-vertex graph with the antiparallel pair `(1,2,1)` / `(2,1,1)`:
source 0, sink 2. -/
def antiparallel3 : PushRelabel.State :=
  PushRelabel.add_edges (PushRelabel.init 3) [(0, 1, 1), (1, 2, 1), (2, 1, 1)]

/-- The first of two `add_edge` calls registering the same ordered pair
`(0, 1)` on a 3-vertex engine. -/
def dupCall1 : Option PyErr × PushRelabel.State :=
  PushRelabel.add_edge (PushRelabel.init 3) 0 1 5

/-- The second, duplicated `add_edge` call for the pair `(0, 1)`. -/
def dupCall2 : Option PyErr × PushRelabel.State :=
  PushRelabel.add_edge dupCall1.2 0 1 3

/-- A minimal 2-vertex engine with the single arc (0, 1, 1), used to
witness the universally quantified max-flow theorems. -/
def tiny2 : PushRelabel.State :=
  PushRelabel.add_edges (PushRelabel.init 2) [(0, 1, 1)]

/-- A minimal 2-vertex min-cost engine with the single arc
(0, 1, cap 1, cost -1), whose negative cost makes the arc admissible for
refine's saturation step. -/
def mc2 : MinCostPushRelabel.State :=
  MinCostPushRelabel.add_edges (MinCostPushRelabel.init 2) [(0, 1, 1, -1)]

/-- A 2-vertex min-cost engine with arc (0, 1, cap 1, cost 0) and supply
1 at node 0: node 0 has positive excess, a residual neighbor arc, and no
admissible arc (its reduced cost is 0), so refine's discharge loop would
relabel it. -/
def mcRelabel : MinCostPushRelabel.State :=
  (MinCostPushRelabel.set_supply
    (MinCostPushRelabel.add_edges (MinCostPushRelabel.init 2) [(0, 1, 1, 0)]) 0 1).1

/-- Scenario 2 of the spec made infeasible: the 6-vertex min-cost example
graph of cost_scaling.py (lines 223-249) with the demand at node 5
increased to `-1000`. -/
def scenario2inf : MinCostPushRelabel.State :=
  let st := MinCostPushRelabel.add_edges (MinCostPushRelabel.init 6)
    [(0, 2, 15, 4), (0, 3, 10, 3), (1, 2, 20, 6), (1, 3, 5, 8),
     (2, 4, 25, 2), (3, 4, 10, 5), (3, 5, 15, 4), (4, 5, 20, 1)]
  let st := (MinCostPushRelabel.set_supply st 0 20).1
  let st := (MinCostPushRelabel.set_supply st 1 15).1
  let st := (MinCostPushRelabel.set_supply st 4 (-10)).1
  (MinCostPushRelabel.set_supply st 5 (-1000)).1

/-! ### Theorems -/

/-- C2: On the 6-vertex graph with arcs
(0,1,16),(0,2,13),(1,2,10),(1,3,12),(2,1,4),(2,4,14),(3,2,9),(3,5,20),
(4,3,7),(4,5,4), the call max_flow(0, 5) returns 23. -/
theorem C2_scenario1_max_flow :
    (PushRelabel.max_flow scenario1 0 5 20).map Prod.fst = some 23 := by
  decide

/-- C1 (code evaluated at the failing input): on Scenario 2's graph with
the demand at node 5 increased to -1000, `min_cost_flow(alpha = 2)` does
not return the infeasibility signal (None, None) — it raises `TypeError`,
because the feasibility step executes `g.max_flow()` without the two
required positional arguments of `PushRelabel.max_flow(s, t)`. -/
theorem C1_min_cost_flow_raises_typeError :
    (MinCostPushRelabel.min_cost_flow scenario2inf 2).1 =
      Except.error PyErr.typeError := by
  rfl

/-- C9: registering the ordered pair (0, 1) twice is neither rejected nor
merged — the second capacity 3 overwrites the first capacity 5 and `1` is
appended to `graph[0]` a second time — and `initialize_preflow(0)` then
decrements `excess[0]` once per duplicate entry (to -6) while `excess[1]`
is only reassigned (to 3), leaving the excess accounting inconsistent with
the single stored arc `flow[0][1] = 3` (the row sum of the source's flow
is 3, not 6). -/
theorem C9_duplicate_add_edge :
    dupCall1.1 = none ∧ dupCall2.1 = none ∧
    dupCall2.2.graph 0 = [1, 1] ∧
    mget dupCall2.2.capacity 0 1 = 3 ∧
    lgetD (PushRelabel.init_preflow dupCall2.2 0).excess 0 0 = -6 ∧
    lgetD (PushRelabel.init_preflow dupCall2.2 0).excess 1 0 = 3 ∧
    mget (PushRelabel.init_preflow dupCall2.2 0).flow 0 1 = 3 ∧
    rowSum (PushRelabel.init_preflow dupCall2.2 0).flow 0 = 3 := by
  refine ⟨rfl, rfl, by decide, by decide, by decide, by decide, by decide, by decide⟩

/-! ### Basic lemmas about the Python list/matrix model -/

theorem length_lsetD {α : Type} (l : List α) (i : Nat) (x : α) :
    (lsetD l i x).length = l.length := l.length_set i x

theorem lgetD_lsetD_eq {α : Type} (l : List α) (i : Nat) (x d : α) (h : i < l.length) :
    lgetD (lsetD l i x) i d = x := by
  simp [lgetD, lsetD, List.getD_eq_getElem?_getD, List.getElem?_set_self, h]

theorem lgetD_lsetD_ne {α : Type} (l : List α) (i j : Nat) (x d : α) (h : i ≠ j) :
    lgetD (lsetD l i x) j d = lgetD l j d := by
  simp [lgetD, lsetD, List.getD_eq_getElem?_getD, List.getElem?_set_ne h]

theorem sum_lsetD (l : List Int) (i : Nat) (x : Int) (h : i < l.length) :
    (lsetD l i x).sum = l.sum - l.getD i 0 + x := by
  simp only [lsetD, List.sum_set', h, dite_true, List.getD_eq_getElem l 0 h]
  ring

theorem WFm.row_len {m : List (List Int)} {n : Nat} (h : WFm m n) {i : Nat} (hi : i < n) :
    (lgetD m i []).length = n := by
  have hlen : i < m.length := by rw [h.1]; exact hi
  have : lgetD m i [] = m[i] := List.getD_eq_getElem m [] hlen
  rw [this]
  exact h.2 _ (List.getElem_mem hlen)

theorem mget_mset_eq {m : List (List Int)} {n : Nat} (h : WFm m n) {i j : Nat}
    (hi : i < n) (hj : j < n) (x : Int) : mget (mset m i j x) i j = x := by
  have hlen : i < m.length := by rw [h.1]; exact hi
  have hrow : j < (lgetD m i []).length := by rw [h.row_len hi]; exact hj
  unfold mget mset
  rw [lgetD_lsetD_eq _ _ _ _ hlen, lgetD_lsetD_eq _ _ _ _ hrow]

theorem mget_mset_ne (m : List (List Int)) (i j a b : Nat) (x : Int)
    (hab : a ≠ i ∨ b ≠ j) : mget (mset m i j x) a b = mget m a b := by
  unfold mget mset
  by_cases hai : a = i
  · subst hai
    have hbj : b ≠ j := by
      rcases hab with h | h
      · exact absurd rfl h
      · exact h
    rcases Nat.lt_or_ge a m.length with hlt | hge
    · rw [lgetD_lsetD_eq _ _ _ _ hlt, lgetD_lsetD_ne _ _ _ _ _ (Ne.symm hbj)]
    · rw [lsetD, List.set_eq_of_length_le hge]
  · rw [lgetD_lsetD_ne _ _ _ _ _ (fun hh => hai hh.symm)]

theorem WFm_mset {m : List (List Int)} {n : Nat} (h : WFm m n) {i j : Nat}
    (hi : i < n) (x : Int) : WFm (mset m i j x) n := by
  constructor
  · rw [mset, length_lsetD, h.1]
  · intro r hr
    rcases List.mem_or_eq_of_mem_set hr with hmem | heq
    · exact h.2 r hmem
    · rw [heq, length_lsetD, h.row_len hi]

theorem rowSum_mset_self {m : List (List Int)} {n : Nat} (h : WFm m n) {i j : Nat}
    (hi : i < n) (hj : j < n) (x : Int) :
    rowSum (mset m i j x) i = rowSum m i - mget m i j + x := by
  have hlen : i < m.length := by rw [h.1]; exact hi
  have hrow : j < (lgetD m i []).length := by rw [h.row_len hi]; exact hj
  unfold rowSum mset mget
  rw [lgetD_lsetD_eq _ _ _ _ hlen, sum_lsetD _ _ _ hrow]
  rfl

theorem rowSum_mset_ne (m : List (List Int)) (i j a : Nat) (x : Int) (ha : a ≠ i) :
    rowSum (mset m i j x) a = rowSum m a := by
  unfold rowSum mset
  rw [lgetD_lsetD_ne _ _ _ _ _ (fun hh => ha hh.symm)]

theorem sum_concentrated :
    ∀ (l : List Int) (s : Nat), s < l.length →
      (∀ w, w < l.length → w ≠ s → l.getD w 0 = 0) → l.sum = l.getD s 0
  | [], s, hs, _ => absurd hs (by simp)
  | a :: tl, 0, _, h => by
    have htl : tl.sum = 0 := by
      apply List.sum_eq_zero
      intro x hx
      rcases List.getElem_of_mem hx with ⟨k, hk, hval⟩
      have := h (k + 1) (by simpa using Nat.succ_lt_succ hk) (Nat.succ_ne_zero k)
      rw [List.getD_cons_succ, List.getD_eq_getElem tl 0 hk] at this
      rw [← hval, this]
    simp [htl]
  | a :: tl, s + 1, hs, h => by
    have ha : a = 0 := h 0 (Nat.succ_pos _) (Nat.succ_ne_zero s).symm
    have htl : tl.sum = tl.getD s 0 := by
      apply sum_concentrated tl s (Nat.lt_of_succ_lt_succ hs)
      intro w hw hws
      exact h (w + 1) (Nat.succ_lt_succ hw) (fun hh => hws (Nat.succ_injective hh))
    simp [ha, htl]

/-! ### Skew-symmetry of paired matrix updates -/

theorem skew_pair_update {m : List (List Int)} {n : Nat} (h : WFm m n) {u v : Nat}
    (hu : u < n) (hv : v < n) (δ : Int) (hskew : Skew m n) :
    Skew (mset (mset m u v (mget m u v + δ)) v u
      (mget (mset m u v (mget m u v + δ)) v u - δ)) n := by
  set m1 := mset m u v (mget m u v + δ) with hm1
  by_cases huv : u = v
  · subst huv
    have hval : mget m1 u u = mget m u u + δ := mget_mset_eq h hu hu _
    have hpt : ∀ a b, mget (mset m1 u u (mget m1 u u - δ)) a b = mget m a b := by
      intro a b
      by_cases hab : a = u ∧ b = u
      · rw [hab.1, hab.2, mget_mset_eq (WFm_mset h hu _) hu hu, hval]
        ring
      · have hor : a ≠ u ∨ b ≠ u := by tauto
        rw [mget_mset_ne _ _ _ _ _ _ hor, hm1, mget_mset_ne _ _ _ _ _ _ hor]
    intro a ha b hb
    rw [hpt, hpt]
    exact hskew a ha b hb
  · intro a ha b hb
    have hvu : mget m1 v u = mget m v u := mget_mset_ne _ _ _ _ _ _ (Or.inl (Ne.symm huv))
    by_cases hab1 : a = u ∧ b = v
    · rw [hab1.1, hab1.2, mget_mset_eq (WFm_mset h hu _) hv hu,
        mget_mset_ne _ _ _ _ _ _ (Or.inl huv), mget_mset_eq h hu hv, hvu,
        hskew u hu v hv]
      ring
    · by_cases hab2 : a = v ∧ b = u
      · rw [hab2.1, hab2.2, mget_mset_ne _ _ _ _ _ _ (Or.inl huv), mget_mset_eq h hu hv,
          mget_mset_eq (WFm_mset h hu _) hv hu, hvu, hskew u hu v hv]
        ring
      · have hba1 : ¬(b = u ∧ a = v) := fun ⟨x, y⟩ => hab2 ⟨y, x⟩
        have hba2 : ¬(b = v ∧ a = u) := fun ⟨x, y⟩ => hab1 ⟨y, x⟩
        rw [mget_mset_ne _ _ _ _ _ _ (by tauto), mget_mset_ne _ _ _ _ _ _ (by tauto),
          mget_mset_ne _ _ _ _ _ _ (by tauto), mget_mset_ne _ _ _ _ _ _ (by tauto)]
        exact hskew a ha b hb

theorem skew_mirror_assign {m : List (List Int)} {n : Nat} (h : WFm m n) {s v : Nat}
    (hs : s < n) (hv : v < n) (c : Int) (hsv : s ≠ v ∨ c = 0) (hskew : Skew m n) :
    Skew (mset (mset m s v c) v s (-c)) n := by
  by_cases hne : s = v
  · have hc : c = 0 := by
      rcases hsv with hx | hx
      · exact absurd hne hx
      · exact hx
    subst hne; subst hc
    have h0 : mget m s s = 0 := by
      have := hskew s hs s hs
      omega
    have hpt : ∀ a b, mget (mset (mset m s s 0) s s (-0)) a b = mget m a b := by
      intro a b
      by_cases hab : a = s ∧ b = s
      · rw [hab.1, hab.2, mget_mset_eq (WFm_mset h hs _) hs hs, h0]
        norm_num
      · have hor : a ≠ s ∨ b ≠ s := by tauto
        rw [mget_mset_ne _ _ _ _ _ _ hor, mget_mset_ne _ _ _ _ _ _ hor]
    intro a ha b hb
    rw [hpt, hpt]
    exact hskew a ha b hb
  · intro a ha b hb
    by_cases hab1 : a = s ∧ b = v
    · rw [hab1.1, hab1.2, mget_mset_eq (WFm_mset h hs _) hv hs,
        mget_mset_ne _ _ _ _ _ _ (Or.inl hne), mget_mset_eq h hs hv]
    · by_cases hab2 : a = v ∧ b = s
      · rw [hab2.1, hab2.2, mget_mset_ne _ _ _ _ _ _ (Or.inl hne), mget_mset_eq h hs hv,
          mget_mset_eq (WFm_mset h hs _) hv hs]
        ring
      · have hba1 : ¬(b = s ∧ a = v) := fun ⟨x, y⟩ => hab2 ⟨y, x⟩
        have hba2 : ¬(b = v ∧ a = s) := fun ⟨x, y⟩ => hab1 ⟨y, x⟩
        rw [mget_mset_ne _ _ _ _ _ _ (by tauto), mget_mset_ne _ _ _ _ _ _ (by tauto),
          mget_mset_ne _ _ _ _ _ _ (by tauto), mget_mset_ne _ _ _ _ _ _ (by tauto)]
        exact hskew a ha b hb

/-! ### Field characterization of the max-flow operations -/

namespace PushRelabel

theorem push_V (st : State) (u v : Nat) : (push st u v).V = st.V := rfl

theorem push_height (st : State) (u v : Nat) : (push st u v).height = st.height := rfl

theorem push_capacity (st : State) (u v : Nat) : (push st u v).capacity = st.capacity := rfl

theorem push_graph (st : State) (u v : Nat) : (push st u v).graph = st.graph := rfl

theorem push_flow_def (st : State) (u v : Nat) :
    (push st u v).flow =
      mset (mset st.flow u v (mget st.flow u v + pushDelta st u v)) v u
        (mget (mset st.flow u v (mget st.flow u v + pushDelta st u v)) v u
          - pushDelta st u v) := rfl

theorem push_excess_def (st : State) (u v : Nat) :
    (push st u v).excess =
      lsetD (lsetD st.excess u (lgetD st.excess u 0 - pushDelta st u v)) v
        (lgetD (lsetD st.excess u (lgetD st.excess u 0 - pushDelta st u v)) v 0
          + pushDelta st u v) := rfl

theorem push_flow_uv {st : State} {u v : Nat} (h : WFm st.flow st.V)
    (hu : u < st.V) (hv : v < st.V) (huv : u ≠ v) :
    mget (push st u v).flow u v = mget st.flow u v + pushDelta st u v := by
  rw [push_flow_def, mget_mset_ne _ _ _ _ _ _ (Or.inl huv), mget_mset_eq h hu hv]

theorem push_flow_vu {st : State} {u v : Nat} (h : WFm st.flow st.V)
    (hu : u < st.V) (hv : v < st.V) (huv : u ≠ v) :
    mget (push st u v).flow v u = mget st.flow v u - pushDelta st u v := by
  rw [push_flow_def, mget_mset_eq (WFm_mset h hu _) hv hu,
    mget_mset_ne _ _ _ _ _ _ (Or.inl (Ne.symm huv))]

theorem push_flow_other (st : State) {u v a b : Nat}
    (h1 : a ≠ u ∨ b ≠ v) (h2 : a ≠ v ∨ b ≠ u) :
    mget (push st u v).flow a b = mget st.flow a b := by
  rw [push_flow_def, mget_mset_ne _ _ _ _ _ _ h2, mget_mset_ne _ _ _ _ _ _ h1]

theorem push_excess_u {st : State} {u v : Nat} (hlen : st.excess.length = st.V)
    (hu : u < st.V) (huv : u ≠ v) :
    lgetD (push st u v).excess u 0 = lgetD st.excess u 0 - pushDelta st u v := by
  rw [push_excess_def, lgetD_lsetD_ne _ _ _ _ _ (Ne.symm huv),
    lgetD_lsetD_eq _ _ _ _ (by rw [hlen]; exact hu)]

theorem push_excess_v {st : State} {u v : Nat} (hlen : st.excess.length = st.V)
    (hv : v < st.V) (huv : u ≠ v) :
    lgetD (push st u v).excess v 0 = lgetD st.excess v 0 + pushDelta st u v := by
  rw [push_excess_def,
    lgetD_lsetD_eq _ _ _ _ (by rw [length_lsetD, hlen]; exact hv),
    lgetD_lsetD_ne _ _ _ _ _ huv]

theorem push_excess_other (st : State) {u v w : Nat} (hwu : w ≠ u) (hwv : w ≠ v) :
    lgetD (push st u v).excess w 0 = lgetD st.excess w 0 := by
  rw [push_excess_def, lgetD_lsetD_ne _ _ _ _ _ (Ne.symm hwv),
    lgetD_lsetD_ne _ _ _ _ _ (Ne.symm hwu)]

theorem push_rowSum_u {st : State} {u v : Nat} (h : WFm st.flow st.V)
    (hu : u < st.V) (hv : v < st.V) (huv : u ≠ v) :
    rowSum (push st u v).flow u = rowSum st.flow u + pushDelta st u v := by
  rw [push_flow_def, rowSum_mset_ne _ _ _ _ _ huv,
    rowSum_mset_self h hu hv]
  ring

theorem push_rowSum_v {st : State} {u v : Nat} (h : WFm st.flow st.V)
    (hu : u < st.V) (hv : v < st.V) (huv : u ≠ v) :
    rowSum (push st u v).flow v = rowSum st.flow v - pushDelta st u v := by
  rw [push_flow_def, rowSum_mset_self (WFm_mset h hu _) hv hu,
    rowSum_mset_ne _ _ _ _ _ (Ne.symm huv)]
  ring

theorem push_rowSum_other (st : State) {u v w : Nat} (hwu : w ≠ u) (hwv : w ≠ v) :
    rowSum (push st u v).flow w = rowSum st.flow w := by
  rw [push_flow_def, rowSum_mset_ne _ _ _ _ _ hwv, rowSum_mset_ne _ _ _ _ _ hwu]

theorem push_WFm_flow {st : State} {u v : Nat} (h : WFm st.flow st.V)
    (hu : u < st.V) (hv : v < st.V) : WFm (push st u v).flow st.V := by
  rw [push_flow_def]
  exact WFm_mset (WFm_mset h hu _) hv _

theorem push_excess_len (st : State) (u v : Nat) :
    (push st u v).excess.length = st.excess.length := by
  rw [push_excess_def, length_lsetD, length_lsetD]

theorem push_skew {st : State} {u v : Nat} (h : WFm st.flow st.V)
    (hu : u < st.V) (hv : v < st.V) (hskew : Skew st.flow st.V) :
    Skew (push st u v).flow st.V := by
  rw [push_flow_def]
  exact skew_pair_update h hu hv _ hskew

theorem relabel_V (st : State) (u : Nat) : (relabel st u).V = st.V := by
  unfold relabel
  cases hm :
    (List.range st.V).foldl
      (fun acc v =>
        if 0 < mget st.capacity u v - mget st.flow u v then
          match acc with
          | none => some (lgetD st.height v 0)
          | some m => some (min m (lgetD st.height v 0))
        else acc)
      none with
  | none => rfl
  | some m => rfl

theorem relabel_excess (st : State) (u : Nat) : (relabel st u).excess = st.excess := by
  unfold relabel
  cases hm :
    (List.range st.V).foldl
      (fun acc v =>
        if 0 < mget st.capacity u v - mget st.flow u v then
          match acc with
          | none => some (lgetD st.height v 0)
          | some m => some (min m (lgetD st.height v 0))
        else acc)
      none with
  | none => rfl
  | some m => rfl

theorem relabel_flow (st : State) (u : Nat) : (relabel st u).flow = st.flow := by
  unfold relabel
  cases hm :
    (List.range st.V).foldl
      (fun acc v =>
        if 0 < mget st.capacity u v - mget st.flow u v then
          match acc with
          | none => some (lgetD st.height v 0)
          | some m => some (min m (lgetD st.height v 0))
        else acc)
      none with
  | none => rfl
  | some m => rfl

theorem relabel_capacity (st : State) (u : Nat) : (relabel st u).capacity = st.capacity := by
  unfold relabel
  cases hm :
    (List.range st.V).foldl
      (fun acc v =>
        if 0 < mget st.capacity u v - mget st.flow u v then
          match acc with
          | none => some (lgetD st.height v 0)
          | some m => some (min m (lgetD st.height v 0))
        else acc)
      none with
  | none => rfl
  | some m => rfl

theorem relabel_graph (st : State) (u : Nat) : (relabel st u).graph = st.graph := by
  unfold relabel
  cases hm :
    (List.range st.V).foldl
      (fun acc v =>
        if 0 < mget st.capacity u v - mget st.flow u v then
          match acc with
          | none => some (lgetD st.height v 0)
          | some m => some (min m (lgetD st.height v 0))
        else acc)
      none with
  | none => rfl
  | some m => rfl

theorem relabel_height_len (st : State) (u : Nat) :
    (relabel st u).height.length = st.height.length := by
  unfold relabel
  cases hm :
    (List.range st.V).foldl
      (fun acc v =>
        if 0 < mget st.capacity u v - mget st.flow u v then
          match acc with
          | none => some (lgetD st.height v 0)
          | some m => some (min m (lgetD st.height v 0))
        else acc)
      none with
  | none => rfl
  | some m => exact length_lsetD _ _ _

end PushRelabel

namespace PushRelabel

theorem findPush_some {st : State} {u v : Nat} (h : findPush st u = some v) :
    v < st.V ∧ 0 < mget st.capacity u v - mget st.flow u v ∧
    lgetD st.height u 0 = lgetD st.height v 0 + 1 := by
  have hmem : v ∈ List.range st.V := List.mem_of_find?_eq_some h
  have hpred := List.find?_some h
  rw [Bool.and_eq_true, decide_eq_true_eq, decide_eq_true_eq] at hpred
  exact ⟨List.mem_range.mp hmem, hpred.1, hpred.2⟩

theorem findPush_ne {st : State} {u v : Nat} (h : findPush st u = some v) : u ≠ v := by
  intro he
  have hh := (findPush_some h).2.2
  rw [he] at hh
  omega

theorem consInv_push {s t : Nat} {st : State} {u v : Nat} (hP : consInv s st)
    (hus : u ≠ s) (hut : u ≠ t) (hu : u < st.V) (hv : v < st.V) (huv : u ≠ v)
    (hex : 0 < lgetD st.excess u 0)
    (hres : 0 < mget st.capacity u v - mget st.flow u v) :
    consInv s (push st u v) := by
  obtain ⟨⟨hel, hhl, hfm, hcm⟩, hcap, hA, hB⟩ := hP
  have hδle : pushDelta st u v ≤ lgetD st.excess u 0 := min_le_left _ _
  have hδres : pushDelta st u v ≤ mget st.capacity u v - mget st.flow u v := min_le_right _ _
  have hδ0 : 0 < pushDelta st u v := lt_min hex hres
  refine ⟨⟨?_, ?_, ?_, ?_⟩, ?_, ?_, ?_⟩
  · rw [push_excess_len, push_V]; exact hel
  · rw [push_height, push_V]; exact hhl
  · rw [push_V]; exact push_WFm_flow hfm hu hv
  · rw [push_capacity, push_V]; exact hcm
  · rw [push_V]; intro a b ha hb; rw [push_capacity]; exact hcap a b ha hb
  · rw [push_V]; intro w hw hws
    by_cases hwu : w = u
    · rw [hwu, push_excess_u hel hu huv, push_rowSum_u hfm hu hv huv,
        hA u hu hus]
      ring
    · by_cases hwv : w = v
      · rw [hwv, push_excess_v hel hv huv, push_rowSum_v hfm hu hv huv,
          hA v hv (hwv ▸ hws)]
        ring
      · rw [push_excess_other st hwu hwv, push_rowSum_other st hwu hwv]
        exact hA w hw hws
  · rw [push_V]; intro w hw hws
    by_cases hwu : w = u
    · rw [hwu, push_excess_u hel hu huv]
      omega
    · by_cases hwv : w = v
      · rw [hwv, push_excess_v hel hv huv]
        have := hB v hv (hwv ▸ hws)
        omega
      · rw [push_excess_other st hwu hwv]
        exact hB w hw hws

theorem consInv_relabel {s : Nat} {st : State} {u : Nat} (hP : consInv s st) :
    consInv s (relabel st u) := by
  obtain ⟨⟨hel, hhl, hfm, hcm⟩, hcap, hA, hB⟩ := hP
  refine ⟨⟨?_, ?_, ?_, ?_⟩, ?_, ?_, ?_⟩
  · rw [relabel_excess, relabel_V]; exact hel
  · rw [relabel_height_len, relabel_V]; exact hhl
  · rw [relabel_flow, relabel_V]; exact hfm
  · rw [relabel_capacity, relabel_V]; exact hcm
  · rw [relabel_V]; intro a b ha hb; rw [relabel_capacity]; exact hcap a b ha hb
  · rw [relabel_V]; intro w hw hws
    rw [relabel_excess, relabel_flow]
    exact hA w hw hws
  · rw [relabel_V]; intro w hw hws
    rw [relabel_excess]
    exact hB w hw hws

theorem capInv_push {st : State} {u v : Nat} (hP : capInv st)
    (hu : u < st.V) (hv : v < st.V) (huv : u ≠ v)
    (hex : 0 < lgetD st.excess u 0)
    (hres : 0 < mget st.capacity u v - mget st.flow u v) :
    capInv (push st u v) := by
  obtain ⟨⟨hel, hhl, hfm, hcm⟩, hcap, hC, hskew⟩ := hP
  have hδres : pushDelta st u v ≤ mget st.capacity u v - mget st.flow u v := min_le_right _ _
  have hδ0 : 0 < pushDelta st u v := lt_min hex hres
  refine ⟨⟨?_, ?_, ?_, ?_⟩, ?_, ?_, ?_⟩
  · rw [push_excess_len, push_V]; exact hel
  · rw [push_height, push_V]; exact hhl
  · rw [push_V]; exact push_WFm_flow hfm hu hv
  · rw [push_capacity, push_V]; exact hcm
  · rw [push_V]; intro a b ha hb; rw [push_capacity]; exact hcap a b ha hb
  · rw [push_V]; intro a b ha hb
    rw [push_capacity]
    by_cases hab1 : a = u ∧ b = v
    · rw [hab1.1, hab1.2, push_flow_uv hfm hu hv huv]
      have := hC u v hu hv
      omega
    · by_cases hab2 : a = v ∧ b = u
      · rw [hab2.1, hab2.2, push_flow_vu hfm hu hv huv]
        have := hC v u hv hu
        omega
      · rw [push_flow_other st (by tauto) (by tauto)]
        exact hC a b ha hb
  · rw [push_V]
    exact push_skew hfm hu hv hskew

theorem capInv_relabel {st : State} {u : Nat} (hP : capInv st) :
    capInv (relabel st u) := by
  obtain ⟨⟨hel, hhl, hfm, hcm⟩, hcap, hC, hskew⟩ := hP
  refine ⟨⟨?_, ?_, ?_, ?_⟩, ?_, ?_, ?_⟩
  · rw [relabel_excess, relabel_V]; exact hel
  · rw [relabel_height_len, relabel_V]; exact hhl
  · rw [relabel_flow, relabel_V]; exact hfm
  · rw [relabel_capacity, relabel_V]; exact hcm
  · rw [relabel_V]; intro a b ha hb; rw [relabel_capacity]; exact hcap a b ha hb
  · rw [relabel_V]; intro a b ha hb
    rw [relabel_capacity, relabel_flow]
    exact hC a b ha hb
  · rw [relabel_V, relabel_flow]
    exact hskew

theorem dischargeStep_V (s t : Nat) (st : State) (u : Nat) :
    (dischargeStep s t st u).2.V = st.V := by
  unfold dischargeStep
  split_ifs with h1 h2
  · rfl
  · cases hf : findPush st u with
    | some v => exact push_V st u v
    | none => exact relabel_V st u
  · rfl

theorem dischargeStep_consInv {s t : Nat} {st : State} {u : Nat}
    (hP : consInv s st) (hu : u < st.V) :
    consInv s (dischargeStep s t st u).2 := by
  unfold dischargeStep
  split_ifs with h1 h2
  · exact hP
  · cases hf : findPush st u with
    | some v =>
      have hfacts := findPush_some hf
      exact consInv_push hP (fun hh => h1 (Or.inl hh)) (fun hh => h1 (Or.inr hh))
        hu hfacts.1 (findPush_ne hf) h2 hfacts.2.1
    | none => exact consInv_relabel hP
  · exact hP

theorem dischargeStep_capInv {s t : Nat} {st : State} {u : Nat}
    (hP : capInv st) (hu : u < st.V) :
    capInv (dischargeStep s t st u).2 := by
  unfold dischargeStep
  split_ifs with h1 h2
  · exact hP
  · cases hf : findPush st u with
    | some v =>
      have hfacts := findPush_some hf
      exact capInv_push hP hu hfacts.1 (findPush_ne hf) h2 hfacts.2.1
    | none => exact capInv_relabel hP
  · exact hP

theorem pass_consInv {s t : Nat} {st : State} (hP : consInv s st) :
    consInv s (pass s t st).2 ∧ (pass s t st).2.V = st.V := by
  unfold pass
  have hgen : ∀ (l : List Nat) (acc : Bool × State),
      (∀ u ∈ l, u < st.V) →
      consInv s acc.2 → acc.2.V = st.V →
      consInv s (l.foldl
        (fun acc u =>
          let r := dischargeStep s t acc.2 u
          (acc.1 || r.1, r.2)) acc).2 ∧
      (l.foldl
        (fun acc u =>
          let r := dischargeStep s t acc.2 u
          (acc.1 || r.1, r.2)) acc).2.V = st.V := by
    intro l
    induction l with
    | nil => intro acc _ h hV; exact ⟨h, hV⟩
    | cons u l ih =>
      intro acc hl h hV
      exact ih _ (fun w hw => hl w (List.mem_cons_of_mem u hw))
        (dischargeStep_consInv h (by rw [hV]; exact hl u (List.mem_cons_self u l)))
        ((dischargeStep_V s t acc.2 u).trans hV)
  exact hgen (List.range st.V) (false, st) (fun u hu => List.mem_range.mp hu) hP rfl

theorem pass_capInv {s t : Nat} {st : State} (hP : capInv st) :
    capInv (pass s t st).2 ∧ (pass s t st).2.V = st.V := by
  unfold pass
  have hgen : ∀ (l : List Nat) (acc : Bool × State),
      (∀ u ∈ l, u < st.V) →
      capInv acc.2 → acc.2.V = st.V →
      capInv (l.foldl
        (fun acc u =>
          let r := dischargeStep s t acc.2 u
          (acc.1 || r.1, r.2)) acc).2 ∧
      (l.foldl
        (fun acc u =>
          let r := dischargeStep s t acc.2 u
          (acc.1 || r.1, r.2)) acc).2.V = st.V := by
    intro l
    induction l with
    | nil => intro acc _ h hV; exact ⟨h, hV⟩
    | cons u l ih =>
      intro acc hl h hV
      exact ih _ (fun w hw => hl w (List.mem_cons_of_mem u hw))
        (dischargeStep_capInv h (by rw [hV]; exact hl u (List.mem_cons_self u l)))
        ((dischargeStep_V s t acc.2 u).trans hV)
  exact hgen (List.range st.V) (false, st) (fun u hu => List.mem_range.mp hu) hP rfl

theorem dischargeStep_false {s t : Nat} {st : State} {u : Nat}
    (h : (dischargeStep s t st u).1 = false) :
    (dischargeStep s t st u).2 = st ∧ (u ≠ s → u ≠ t → lgetD st.excess u 0 ≤ 0) := by
  unfold dischargeStep at h ⊢
  split_ifs at h ⊢ with h1 h2
  · refine ⟨rfl, ?_⟩
    intro hs ht
    rcases h1 with hh | hh
    · exact absurd hh hs
    · exact absurd hh ht
  · exfalso
    cases hf : findPush st u with
    | some v => rw [hf] at h; simp at h
    | none => rw [hf] at h; simp at h
  · exact ⟨rfl, fun _ _ => by omega⟩

theorem passFold_mono {s t : Nat} :
    ∀ (l : List Nat) (acc : Bool × PushRelabel.State), acc.1 = true →
      (l.foldl
        (fun acc u =>
          let r := dischargeStep s t acc.2 u
          (acc.1 || r.1, r.2)) acc).1 = true
  | [], acc, ha => ha
  | u :: l, acc, ha => by
    simp only [List.foldl_cons]
    exact passFold_mono l _ (by rw [ha]; rfl)

theorem passFold_false {s t : Nat} {st : State} :
    ∀ (l : List Nat) (b : Bool),
      (l.foldl
        (fun acc u =>
          let r := dischargeStep s t acc.2 u
          (acc.1 || r.1, r.2)) (b, st)).1 = false →
      b = false ∧
      (l.foldl
        (fun acc u =>
          let r := dischargeStep s t acc.2 u
          (acc.1 || r.1, r.2)) (b, st)).2 = st ∧
      ∀ u ∈ l, u ≠ s → u ≠ t → lgetD st.excess u 0 ≤ 0
  | [], b, h => ⟨h, rfl, by intro u hu; exact absurd hu (List.not_mem_nil u)⟩
  | u :: l, b, h => by
    simp only [List.foldl_cons] at h
    cases hbv : b with
    | true =>
      exfalso
      rw [hbv] at h
      rw [passFold_mono l _ (by rfl)] at h
      simp at h
    | false =>
      rw [hbv] at h
      cases hd : (dischargeStep s t st u).1 with
      | true =>
        exfalso
        rw [hd] at h
        rw [passFold_mono l _ (by rfl)] at h
        simp at h
      | false =>
        have hds := dischargeStep_false hd
        rw [hd, hds.1] at h
        have hrest := passFold_false l (false || false) h
        refine ⟨rfl, ?_, ?_⟩
        · simp only [List.foldl_cons]
          rw [hd, hds.1]
          exact hrest.2.1
        · intro w hw
          rcases List.mem_cons.mp hw with hwu | hwl
          · rw [hwu]; exact hds.2
          · exact hrest.2.2 w hwl

theorem pass_false {s t : Nat} {st : State} (h : (pass s t st).1 = false) :
    (pass s t st).2 = st ∧
    ∀ u, u < st.V → u ≠ s → u ≠ t → lgetD st.excess u 0 ≤ 0 := by
  unfold pass at h ⊢
  have := passFold_false (List.range st.V) false h
  exact ⟨this.2.1, fun u hu => this.2.2 u (List.mem_range.mpr hu)⟩

theorem mfLoop_consInv {s t : Nat} :
    ∀ (fuel : Nat) (st stF : State), consInv s st →
      mfLoop s t fuel st = some stF →
      consInv s stF ∧ stF.V = st.V ∧
      ∀ u, u < stF.V → u ≠ s → u ≠ t → lgetD stF.excess u 0 ≤ 0
  | 0, st, stF, _, h => by simp [mfLoop] at h
  | fuel + 1, st, stF, hP, h => by
    unfold mfLoop at h
    by_cases hb : (pass s t st).1
    · rw [if_pos hb] at h
      have hp := pass_consInv (t := t) hP
      have := mfLoop_consInv fuel _ stF hp.1 h
      exact ⟨this.1, this.2.1.trans hp.2, this.2.2⟩
    · rw [if_neg hb] at h
      have hb' : (pass s t st).1 = false := by
        cases hx : (pass s t st).1
        · rfl
        · exact absurd hx hb
      have hpf := pass_false hb'
      have hst : stF = st := by
        rw [← Option.some_inj, ← h, hpf.1]
      subst hst
      exact ⟨hP, rfl, fun u hu => hpf.2 u hu⟩

theorem mfLoop_capInv {s t : Nat} :
    ∀ (fuel : Nat) (st stF : State), capInv st →
      mfLoop s t fuel st = some stF → capInv stF ∧ stF.V = st.V
  | 0, st, stF, _, h => by simp [mfLoop] at h
  | fuel + 1, st, stF, hP, h => by
    unfold mfLoop at h
    by_cases hb : (pass s t st).1
    · rw [if_pos hb] at h
      have hp := pass_capInv (s := s) (t := t) hP
      have := mfLoop_capInv fuel _ stF hp.1 h
      exact ⟨this.1, this.2.trans hp.2⟩
    · rw [if_neg hb] at h
      have hb' : (pass s t st).1 = false := by
        cases hx : (pass s t st).1
        · rfl
        · exact absurd hx hb
      have hst : stF = st := by
        rw [← Option.some_inj, ← h, (pass_false hb').1]
      subst hst
      exact ⟨hP, rfl⟩

end PushRelabel

namespace PushRelabel

theorem initStep_V (s : Nat) (st : State) (v : Nat) : (initStep s st v).V = st.V := rfl

theorem initStep_capacity (s : Nat) (st : State) (v : Nat) :
    (initStep s st v).capacity = st.capacity := rfl

theorem initStep_height (s : Nat) (st : State) (v : Nat) :
    (initStep s st v).height = st.height := rfl

theorem initStep_flow (s : Nat) (st : State) (v : Nat) :
    (initStep s st v).flow =
      mset (mset st.flow s v (mget st.capacity s v)) v s (-(mget st.capacity s v)) := rfl

theorem initStep_excess (s : Nat) (st : State) (v : Nat) :
    (initStep s st v).excess =
      lsetD (lsetD st.excess v (mget st.capacity s v)) s
        (lgetD (lsetD st.excess v (mget st.capacity s v)) s 0
          - mget st.capacity s v) := rfl

theorem initStep_initInv {s V : Nat} {cap : List (List Int)} {st : State} {v : Nat}
    (hQ : initInv s V cap st) (hs : s < V) (hv : v < V)
    (hcap : ∀ a b, a < V → b < V → 0 ≤ mget cap a b) :
    initInv s V cap (initStep s st v) := by
  obtain ⟨hV, hcapeq, ⟨hel, hhl, hfm, hcm⟩, hconc, hexf, hexn, hC, hskew⟩ := hQ
  have hfmV : WFm st.flow V := hV ▸ hfm
  have hsV : s < st.V := by rw [hV]; exact hs
  have hvV : v < st.V := by rw [hV]; exact hv
  have helV : st.excess.length = V := by rw [← hV]; exact hel
  have hc0 : mget st.capacity s v = mget cap s v := by rw [hcapeq]
  have hc0nn : 0 ≤ mget st.capacity s v := by rw [hc0]; exact hcap s v hs hv
  refine ⟨hV, by rw [initStep_capacity]; exact hcapeq, ⟨?_, ?_, ?_, ?_⟩, ?_, ?_, ?_, ?_, ?_⟩
  · rw [initStep_excess, length_lsetD, length_lsetD, initStep_V]; exact hel
  · rw [initStep_height, initStep_V]; exact hhl
  · rw [initStep_flow, initStep_V]
    exact WFm_mset (WFm_mset hfm hsV _) hvV _
  · rw [initStep_capacity, initStep_V]; exact hcm
  · -- concentration off column s for rows other than s
    intro u w hu hus hw hws
    rw [initStep_flow]
    by_cases hvs : v = s
    · rw [mget_mset_ne _ _ _ _ _ _ (Or.inl (fun hh => hus (hh.trans hvs))),
        mget_mset_ne _ _ _ _ _ _ (Or.inl hus)]
      exact hconc u w hu hus hw hws
    · rw [mget_mset_ne _ _ _ _ _ _ (Or.inr hws), mget_mset_ne _ _ _ _ _ _ (Or.inl hus)]
      exact hconc u w hu hus hw hws
  · -- excess[u] mirrors -flow[u][s] away from s
    intro u hu hus
    rw [initStep_flow, initStep_excess,
      lgetD_lsetD_ne _ _ _ _ _ (Ne.symm hus)]
    by_cases hvs : v = s
    · rw [lgetD_lsetD_ne _ _ _ _ _ (fun hh => hus (hh.symm.trans hvs)),
        mget_mset_ne _ _ _ _ _ _ (Or.inl (fun hh => hus (hh.trans hvs))),
        mget_mset_ne _ _ _ _ _ _ (Or.inl hus)]
      exact hexf u hu hus
    · by_cases huv : u = v
      · rw [huv, lgetD_lsetD_eq _ _ _ _ (by rw [helV]; exact hv),
          mget_mset_eq (WFm_mset hfmV (hV ▸ hsV) _) hv hs]
        ring
      · rw [lgetD_lsetD_ne _ _ _ _ _ (fun hh => huv hh.symm),
          mget_mset_ne _ _ _ _ _ _ (Or.inl huv),
          mget_mset_ne _ _ _ _ _ _ (Or.inl hus)]
        exact hexf u hu hus
  · -- nonnegativity of excesses away from s
    intro u hu hus
    rw [initStep_excess, lgetD_lsetD_ne _ _ _ _ _ (Ne.symm hus)]
    by_cases huv : u = v
    · rw [huv, lgetD_lsetD_eq _ _ _ _ (by rw [helV]; exact hv)]
      exact hc0nn
    · rw [lgetD_lsetD_ne _ _ _ _ _ (fun hh => huv hh.symm)]
      exact hexn u hu hus
  · -- flow bounded by capacity
    intro a b ha hb
    rw [initStep_flow, initStep_capacity]
    by_cases hvs : v = s
    · by_cases hab : a = s ∧ b = v
      · rw [hab.1, hab.2, hvs, mget_mset_eq (WFm_mset hfmV hs _) hs hs]
        rw [hvs] at hc0nn
        omega
      · have hab2 : ¬(a = v ∧ b = s) := by
          intro hh
          exact hab ⟨hh.1.trans hvs, hh.2.trans hvs.symm⟩
        rw [mget_mset_ne _ _ _ _ _ _ (by tauto), mget_mset_ne _ _ _ _ _ _ (by tauto)]
        exact hC a b ha hb
    · by_cases hab1 : a = v ∧ b = s
      · rw [hab1.1, hab1.2, mget_mset_eq (WFm_mset hfmV hs _) hv hs]
        have := hcap v s hv hs
        rw [← hcapeq] at this
        omega
      · by_cases hab2 : a = s ∧ b = v
        · rw [hab2.1, hab2.2, mget_mset_ne _ _ _ _ _ _ (Or.inl (Ne.symm hvs)),
            mget_mset_eq hfmV hs hv]
        · rw [mget_mset_ne _ _ _ _ _ _ (by tauto), mget_mset_ne _ _ _ _ _ _ (by tauto)]
          exact hC a b ha hb
  · -- conditional skew symmetry
    intro hss
    rw [initStep_flow]
    refine skew_mirror_assign hfmV hs hv _ ?_ (hskew hss)
    by_cases hvs : v = s
    · refine Or.inr ?_
      rw [hc0, hvs, hss]
    · exact Or.inl (fun hh => hvs hh.symm)

end PushRelabel

namespace PushRelabel

theorem initFold_initInv {s V : Nat} {cap : List (List Int)}
    (hs : s < V) (hcap : ∀ a b, a < V → b < V → 0 ≤ mget cap a b) :
    ∀ (l : List Nat) (st : State), (∀ v ∈ l, v < V) → initInv s V cap st →
      initInv s V cap (l.foldl (initStep s) st)
  | [], st, _, hQ => hQ
  | v :: l, st, hl, hQ => by
    simp only [List.foldl_cons]
    exact initFold_initInv hs hcap l _ (fun w hw => hl w (List.mem_cons_of_mem v hw))
      (initStep_initInv hQ hs (hl v (List.mem_cons_self v l)) hcap)

theorem init_preflow_initInv {st : State} {s : Nat} (hWF : WF st)
    (hcap : ∀ a b, a < st.V → b < st.V → 0 ≤ mget st.capacity a b)
    (hflow0 : ∀ a b, a < st.V → b < st.V → mget st.flow a b = 0)
    (hex0 : ∀ u, u < st.V → lgetD st.excess u 0 = 0)
    (hs : s < st.V)
    (hadj : ∀ v ∈ st.graph s, v < st.V) :
    initInv s st.V st.capacity (init_preflow st s) := by
  obtain ⟨hel, hhl, hfm, hcm⟩ := hWF
  have hbase : initInv s st.V st.capacity
      { st with height := lsetD st.height s (st.V : Int) } := by
    refine ⟨rfl, rfl, ⟨hel, by rw [length_lsetD]; exact hhl, hfm, hcm⟩, ?_, ?_, ?_, ?_, ?_⟩
    · intro u w hu _ hw _; exact hflow0 u w hu hw
    · intro u hu hus
      rw [hex0 u hu, hflow0 u s hu hs]
      ring
    · intro u hu _
      rw [hex0 u hu]
    · intro a b ha hb
      rw [hflow0 a b ha hb]
      exact hcap a b ha hb
    · intro _ u hu v hv
      rw [hflow0 u v hu hv, hflow0 v u hv hu]
      ring
  exact initFold_initInv hs hcap (st.graph s) _ hadj hbase

theorem initInv_consInv {s V : Nat} {cap : List (List Int)} {st : State}
    (hQ : initInv s V cap st) (hs : s < V)
    (hcap : ∀ a b, a < V → b < V → 0 ≤ mget cap a b) : consInv s st := by
  obtain ⟨hV, hcapeq, hWF, hconc, hexf, hexn, hC, _⟩ := hQ
  refine ⟨hWF, ?_, ?_, ?_⟩
  · intro a b ha hb
    rw [hcapeq]
    exact hcap a b (hV ▸ ha) (hV ▸ hb)
  · intro u hu hus
    have huV : u < V := hV ▸ hu
    have hlen : (lgetD st.flow u []).length = V := by
      rw [← hV]
      exact hWF.2.2.1.row_len hu
    have hrow : rowSum st.flow u = mget st.flow u s := by
      have hzero : ∀ w, w < (lgetD st.flow u []).length → w ≠ s →
          (lgetD st.flow u []).getD w 0 = 0 := by
        intro w hw hws
        exact hconc u w huV hus (by rw [hlen] at hw; exact hw) hws
      exact sum_concentrated (lgetD st.flow u []) s (by rw [hlen]; exact hs) hzero
    rw [hrow]
    exact hexf u huV hus
  · intro u hu hus
    exact hexn u (hV ▸ hu) hus

theorem initInv_capInv {s V : Nat} {cap : List (List Int)} {st : State}
    (hQ : initInv s V cap st) (hss : mget cap s s = 0)
    (hcap : ∀ a b, a < V → b < V → 0 ≤ mget cap a b) : capInv st := by
  obtain ⟨hV, hcapeq, hWF, _, _, _, hC, hskew⟩ := hQ
  refine ⟨hWF, ?_, ?_, ?_⟩
  · intro a b ha hb
    rw [hcapeq]
    exact hcap a b (hV ▸ ha) (hV ▸ hb)
  · intro a b ha hb
    exact hC a b (hV ▸ ha) (hV ▸ hb)
  · rw [hV]
    exact hskew hss

end PushRelabel

/-- C3: For every graph with nonnegative capacities and every in-range
source s ≠ sink t, when max_flow(s, t) returns, its return value equals
excess[t], and every vertex u other than s and t satisfies
Σ_v flow[u][v] = 0 (flow conservation at all interior vertices). -/
theorem C3_max_flow_conservation (st : PushRelabel.State) (s t fuel : Nat)
    (hWF : PushRelabel.WF st)
    (hcap : ∀ a, a < st.V → ∀ b, b < st.V → 0 ≤ mget st.capacity a b)
    (hflow0 : ∀ a, a < st.V → ∀ b, b < st.V → mget st.flow a b = 0)
    (hex0 : ∀ u, u < st.V → lgetD st.excess u 0 = 0)
    (hs : s < st.V) (ht : t < st.V) (hst : s ≠ t)
    (hadj : ∀ v ∈ st.graph s, v < st.V) :
    PushRelabel.C3post st.V s t (PushRelabel.max_flow st s t fuel) := by
  have hgoal : PushRelabel.max_flow st s t fuel =
      Option.map (fun stF => (lgetD stF.excess t 0, stF))
        (PushRelabel.mfLoop s t fuel (PushRelabel.init_preflow st s)) := rfl
  rw [hgoal]
  cases hrun : PushRelabel.mfLoop s t fuel (PushRelabel.init_preflow st s) with
  | none => exact trivial
  | some stF =>
    have hQ := PushRelabel.init_preflow_initInv hWF
      (fun a b ha hb => hcap a ha b hb) (fun a b ha hb => hflow0 a ha b hb)
      hex0 hs hadj
    have hcons := PushRelabel.initInv_consInv hQ hs (fun a b ha hb => hcap a ha b hb)
    have hloop := PushRelabel.mfLoop_consInv fuel _ stF hcons hrun
    obtain ⟨hconsF, hVF, hle⟩ := hloop
    have hVF' : stF.V = st.V := hVF.trans hQ.1
    show PushRelabel.C3post st.V s t (some (lgetD stF.excess t 0, stF))
    refine ⟨rfl, ?_⟩
    intro u hu hus hut
    have huV : u < stF.V := by rw [hVF']; exact hu
    have h0 : lgetD stF.excess u 0 = 0 :=
      le_antisymm (hle u huV hus hut) (hconsF.2.2.2 u huV hus)
    have hlink := hconsF.2.2.1 u huV hus
    show rowSum stF.flow u = 0
    omega

/-- Witness for C3 at a concrete instance: the 2-vertex graph with the
single arc (0, 1, 1), source 0, sink 1, fuel 3. -/
theorem C3_max_flow_conservation_witness :
    ((0 : Nat) < tiny2.V ∧ (1 : Nat) < tiny2.V ∧ (0 : Nat) ≠ 1) ∧
    PushRelabel.C3post tiny2.V 0 1 (PushRelabel.max_flow tiny2 0 1 3) :=
  ⟨by decide,
    C3_max_flow_conservation tiny2 0 1 3 (by decide) (by decide) (by decide)
      (by decide) (by decide) (by decide) (by decide) (by decide)⟩

/-- Counterexample to C4 as stated: on the 3-vertex graph with arcs
(0,1,1), (1,2,1) and the antiparallel arc (2,1,1), max_flow(0, 2) returns
and leaves flow[2][1] = -1 even though capacity[2][1] = 1 > 0, violating
0 ≤ flow[u][v] on a positive-capacity arc. -/
theorem C4_counterexample :
    (PushRelabel.max_flow antiparallel3 0 2 10).map
        (fun p => (p.1, mget p.2.flow 2 1, mget p.2.capacity 2 1)) =
      some (1, -1, 1) ∧
    (0 : Int) < 1 ∧ (-1 : Int) < 0 := by
  refine ⟨by decide, by decide, by decide⟩

/-- C4 (amended): For every graph with nonnegative capacities, no
capacitated self-loop at the source, in-range endpoints and zero initial
flow/excess, when max_flow(s, t) returns every ordered pair (u, v)
satisfies flow[u][v] ≤ capacity[u][v] and flow[v][u] = -flow[u][v], hence
-capacity[v][u] ≤ flow[u][v]; the lower bound 0 ≤ flow[u][v] of the
original claim can fail when the antiparallel arc also has positive
capacity (see the counterexample). -/
theorem C4_amended_capacity_bounds (st : PushRelabel.State) (s t fuel : Nat)
    (hWF : PushRelabel.WF st)
    (hcap : ∀ a, a < st.V → ∀ b, b < st.V → 0 ≤ mget st.capacity a b)
    (hflow0 : ∀ a, a < st.V → ∀ b, b < st.V → mget st.flow a b = 0)
    (hex0 : ∀ u, u < st.V → lgetD st.excess u 0 = 0)
    (hs : s < st.V)
    (hss : mget st.capacity s s = 0)
    (hadj : ∀ v ∈ st.graph s, v < st.V) :
    PushRelabel.C4post st.V (PushRelabel.max_flow st s t fuel) := by
  have hgoal : PushRelabel.max_flow st s t fuel =
      Option.map (fun stF => (lgetD stF.excess t 0, stF))
        (PushRelabel.mfLoop s t fuel (PushRelabel.init_preflow st s)) := rfl
  rw [hgoal]
  cases hrun : PushRelabel.mfLoop s t fuel (PushRelabel.init_preflow st s) with
  | none => exact trivial
  | some stF =>
    have hQ := PushRelabel.init_preflow_initInv hWF
      (fun a b ha hb => hcap a ha b hb) (fun a b ha hb => hflow0 a ha b hb)
      hex0 hs hadj
    have hcapI := PushRelabel.initInv_capInv hQ hss (fun a b ha hb => hcap a ha b hb)
    have hloop := PushRelabel.mfLoop_capInv fuel _ stF hcapI hrun
    obtain ⟨⟨hWFF, hcapF, hCF, hskewF⟩, hVF⟩ := hloop
    have hVF' : stF.V = st.V := hVF.trans hQ.1
    show PushRelabel.C4post st.V (some (lgetD stF.excess t 0, stF))
    intro u v hu hv
    have huV : u < stF.V := by rw [hVF']; exact hu
    have hvV : v < stF.V := by rw [hVF']; exact hv
    refine ⟨hCF u v huV hvV, hskewF u huV v hvV, ?_⟩
    have h1 := hCF v u hvV huV
    have h2 := hskewF u huV v hvV
    show -(mget stF.capacity v u) ≤ mget stF.flow u v
    omega

/-- Witness for the amended C4 at a concrete instance: the 2-vertex graph
with the single arc (0, 1, 1), source 0, sink 1, fuel 3. -/
theorem C4_amended_capacity_bounds_witness :
    ((0 : Nat) < tiny2.V ∧ mget tiny2.capacity 0 0 = 0) ∧
    PushRelabel.C4post tiny2.V (PushRelabel.max_flow tiny2 0 1 3) :=
  ⟨by decide,
    C4_amended_capacity_bounds tiny2 0 1 3 (by decide) (by decide)
      (by decide) (by decide) (by decide) (by decide) (by decide)⟩

/-- Counterexample to C6 as stated: add_edge(0, 0, -5) on a 3-vertex
engine — a self-loop with negative capacity — is not rejected: no error is
raised, capacity[0][0] becomes -5, and 0 is appended to graph[0]. -/
theorem C6_counterexample :
    (PushRelabel.add_edge (PushRelabel.init 3) 0 0 (-5)).1 = none ∧
    mget (PushRelabel.add_edge (PushRelabel.init 3) 0 0 (-5)).2.capacity 0 0 = -5 ∧
    (PushRelabel.add_edge (PushRelabel.init 3) 0 0 (-5)).2.graph 0 = [0] := by
  refine ⟨rfl, by decide, by decide⟩

/-- C6 (amended): add_edge performs no argument validation at all — any
in-range pair, including a self-loop and a negative capacity, is accepted
and registered (capacity set, neighbor appended, all other fields
untouched), while an out-of-range index raises IndexError only at the
matrix assignment, after the adjacency list was already mutated;
set_supply does reject a zero supply value, printing a report and leaving
every engine field unchanged. -/
theorem C6_amended_no_validation :
    (∀ (st : PushRelabel.State) (u v : Nat) (c : Int), u < st.V → v < st.V →
      (PushRelabel.add_edge st u v c).1 = none ∧
      (PushRelabel.add_edge st u v c).2.capacity = mset st.capacity u v c ∧
      (PushRelabel.add_edge st u v c).2.graph u = st.graph u ++ [v] ∧
      (∀ w, w ≠ u → (PushRelabel.add_edge st u v c).2.graph w = st.graph w) ∧
      (PushRelabel.add_edge st u v c).2.flow = st.flow ∧
      (PushRelabel.add_edge st u v c).2.excess = st.excess ∧
      (PushRelabel.add_edge st u v c).2.height = st.height) ∧
    (∀ (st : PushRelabel.State) (u v : Nat) (c : Int), ¬(u < st.V ∧ v < st.V) →
      (PushRelabel.add_edge st u v c).1 = some PyErr.indexError ∧
      (PushRelabel.add_edge st u v c).2.capacity = st.capacity ∧
      (PushRelabel.add_edge st u v c).2.graph u = st.graph u ++ [v]) ∧
    (∀ (st : MinCostPushRelabel.State) (u : Nat),
      (MinCostPushRelabel.set_supply st u 0).1 = st ∧
      (MinCostPushRelabel.set_supply st u 0).2 = true) := by
  refine ⟨?_, ?_, ?_⟩
  · intro st u v c hu hv
    unfold PushRelabel.add_edge
    rw [if_pos ⟨hu, hv⟩]
    refine ⟨rfl, rfl, ?_, ?_, rfl, rfl, rfl⟩
    · simp
    · intro w hw
      simp [hw]
  · intro st u v c h
    unfold PushRelabel.add_edge
    rw [if_neg h]
    refine ⟨rfl, rfl, ?_⟩
    simp
  · intro st u
    unfold MinCostPushRelabel.set_supply
    norm_num

/-- Witness for the amended C6 at concrete instances: an in-range
self-loop call succeeds, an out-of-range call raises IndexError, and a
zero-supply call is rejected with the state unchanged. -/
theorem C6_amended_no_validation_witness :
    ((0 : Nat) < (PushRelabel.init 2).V ∧ (1 : Nat) < (PushRelabel.init 2).V ∧
      ¬((5 : Nat) < (PushRelabel.init 2).V ∧ (0 : Nat) < (PushRelabel.init 2).V)) ∧
    (PushRelabel.add_edge (PushRelabel.init 2) 0 1 7).1 = none ∧
    (PushRelabel.add_edge (PushRelabel.init 2) 5 0 7).1 = some PyErr.indexError ∧
    (MinCostPushRelabel.set_supply (MinCostPushRelabel.init 2) 3 0).1 =
      MinCostPushRelabel.init 2 :=
  ⟨by decide,
    (C6_amended_no_validation.1 (PushRelabel.init 2) 0 1 7 (by decide) (by decide)).1,
    (C6_amended_no_validation.2.1 (PushRelabel.init 2) 5 0 7 (by decide)).1,
    (C6_amended_no_validation.2.2 (MinCostPushRelabel.init 2) 3).1⟩

/-! ### Skew preservation of each flow-mutating operation (claim C5) -/

theorem getD_zeros (n j : Nat) : (zeros n).getD j 0 = 0 := by
  unfold zeros
  rcases Nat.lt_or_ge j n with h | h
  · rw [List.getD_eq_getElem _ _ (by simpa using h), List.getElem_replicate]
  · rw [List.getD_eq_default _ _ (by simpa using h)]

theorem mget_zeroM (n i j : Nat) : mget (zeroM n) i j = 0 := by
  have hrow : lgetD (zeroM n) i [] = [] ∨ lgetD (zeroM n) i [] = zeros n := by
    unfold lgetD zeroM
    rcases Nat.lt_or_ge i n with hi | hi
    · refine Or.inr ?_
      rw [List.getD_eq_getElem _ _ (by simpa using hi), List.getElem_replicate]
    · refine Or.inl ?_
      rw [List.getD_eq_default _ _ (by simpa using hi)]
  unfold mget
  rcases hrow with h | h
  · rw [h]
    rfl
  · rw [h]
    exact getD_zeros n j

theorem WFm_zeroM (n : Nat) : WFm (zeroM n) n := by
  constructor
  · simp [zeroM]
  · intro r hr
    rw [List.eq_of_mem_replicate hr]
    simp [zeros]

theorem Skew_zeroM (n : Nat) : Skew (zeroM n) n := by
  intro u _ v _
  rw [mget_zeroM, mget_zeroM]
  ring

namespace PushRelabel

theorem initStep_skew {st : State} {s v : Nat} (hfm : WFm st.flow st.V) (hs : s < st.V)
    (hv : v < st.V) (hss : mget st.capacity s s = 0) (hskew : Skew st.flow st.V) :
    WFm (initStep s st v).flow st.V ∧ Skew (initStep s st v).flow st.V := by
  rw [initStep_flow]
  refine ⟨WFm_mset (WFm_mset hfm hs _) hv _, ?_⟩
  refine skew_mirror_assign hfm hs hv _ ?_ hskew
  by_cases hvs : v = s
  · refine Or.inr ?_
    rw [hvs]
    exact hss
  · exact Or.inl (fun hh => hvs hh.symm)

theorem initFold_skew {n : Nat} {cap : List (List Int)} {s : Nat} (hs : s < n)
    (hss : mget cap s s = 0) :
    ∀ (l : List Nat) (st : State), st.V = n → st.capacity = cap →
      (∀ v ∈ l, v < n) → WFm st.flow n → Skew st.flow n →
      WFm (l.foldl (initStep s) st).flow n ∧ Skew (l.foldl (initStep s) st).flow n
  | [], st, _, _, _, hfm, hskew => ⟨hfm, hskew⟩
  | v :: l, st, hV, hcap, hl, hfm, hskew => by
    simp only [List.foldl_cons]
    have hfm' : WFm st.flow st.V := by rw [hV]; exact hfm
    have hs' : s < st.V := by rw [hV]; exact hs
    have hv' : v < st.V := by rw [hV]; exact hl v (List.mem_cons_self v l)
    have hss' : mget st.capacity s s = 0 := by rw [hcap]; exact hss
    have hskew' : Skew st.flow st.V := by rw [hV]; exact hskew
    have hstep := initStep_skew hfm' hs' hv' hss' hskew'
    exact initFold_skew hs hss l _ ((initStep_V s st v).trans hV)
      ((initStep_capacity s st v).trans hcap)
      (fun w hw => hl w (List.mem_cons_of_mem v hw))
      (by rw [← hV]; exact hstep.1) (by rw [← hV]; exact hstep.2)

theorem init_preflow_skew {st : State} {s : Nat} (hfm : WFm st.flow st.V)
    (hs : s < st.V) (hadj : ∀ v ∈ st.graph s, v < st.V)
    (hss : mget st.capacity s s = 0) (hskew : Skew st.flow st.V) :
    Skew (init_preflow st s).flow st.V :=
  (initFold_skew hs hss (st.graph s)
    { st with height := lsetD st.height s (st.V : Int) } rfl rfl hadj hfm hskew).2

end PushRelabel

namespace MinCostPushRelabel

theorem mc_push_flow_def (st : State) (u v : Nat) :
    (push st u v).flow =
      mset (mset st.flow u v (mget st.flow u v + pushDelta st u v)) v u
        (mget (mset st.flow u v (mget st.flow u v + pushDelta st u v)) v u
          - pushDelta st u v) := rfl

theorem mc_push_skew {st : State} {u v : Nat} (h : WFm st.flow st.V)
    (hu : u < st.V) (hv : v < st.V) (hskew : Skew st.flow st.V) :
    Skew (push st u v).flow st.V := by
  rw [mc_push_flow_def]
  exact skew_pair_update h hu hv _ hskew

theorem satStep_V (u : Nat) (st : State) (v : Nat) : (satStep u st v).V = st.V := by
  unfold satStep
  split_ifs <;> rfl

theorem satStep_graph (u : Nat) (st : State) (v : Nat) :
    (satStep u st v).graph = st.graph := by
  unfold satStep
  split_ifs <;> rfl

theorem satStep_capacity (u : Nat) (st : State) (v : Nat) :
    (satStep u st v).capacity = st.capacity := by
  unfold satStep
  split_ifs <;> rfl

theorem satStep_skew {st : State} {u v : Nat} (hfm : WFm st.flow st.V)
    (hu : u < st.V) (hv : v < st.V) (hskew : Skew st.flow st.V) :
    WFm (satStep u st v).flow st.V ∧ Skew (satStep u st v).flow st.V := by
  unfold satStep
  split_ifs with h1 h2
  · exact ⟨WFm_mset (WFm_mset hfm hu _) hv _, skew_pair_update hfm hu hv _ hskew⟩
  · exact ⟨hfm, hskew⟩
  · exact ⟨hfm, hskew⟩

theorem satFold_skew {n : Nat} {u : Nat} (hu : u < n) :
    ∀ (l : List Nat) (st : State), st.V = n → (∀ v ∈ l, v < n) →
      WFm st.flow n → Skew st.flow n →
      WFm (l.foldl (satStep u) st).flow n ∧ Skew (l.foldl (satStep u) st).flow n ∧
      (l.foldl (satStep u) st).V = n ∧ (l.foldl (satStep u) st).graph = st.graph
  | [], st, hV, _, hfm, hskew => ⟨hfm, hskew, hV, rfl⟩
  | v :: l, st, hV, hl, hfm, hskew => by
    simp only [List.foldl_cons]
    have hfm' : WFm st.flow st.V := by rw [hV]; exact hfm
    have hu' : u < st.V := by rw [hV]; exact hu
    have hv' : v < st.V := by rw [hV]; exact hl v (List.mem_cons_self v l)
    have hskew' : Skew st.flow st.V := by rw [hV]; exact hskew
    have hstep := satStep_skew hfm' hu' hv' hskew'
    rw [hV] at hstep
    have hrec := satFold_skew hu l _ ((satStep_V u st v).trans hV)
      (fun w hw => hl w (List.mem_cons_of_mem v hw)) hstep.1 hstep.2
    exact ⟨hrec.1, hrec.2.1, hrec.2.2.1, hrec.2.2.2.trans (satStep_graph u st v)⟩

theorem refineSaturate_skew {st : State} (hfm : WFm st.flow st.V)
    (hadj : ∀ u, u < st.V → ∀ v ∈ st.graph u, v < st.V)
    (hskew : Skew st.flow st.V) :
    Skew (refineSaturate st).flow st.V := by
  unfold refineSaturate
  have hgen : ∀ (l : List Nat) (st' : State), (∀ u ∈ l, u < st.V) →
      st'.V = st.V → st'.graph = st.graph → WFm st'.flow st.V → Skew st'.flow st.V →
      Skew ((l.foldl (fun st u => (st.graph u).foldl (satStep u) st) st')).flow st.V := by
    intro l
    induction l with
    | nil => intro st' _ _ _ _ hskew'; exact hskew'
    | cons u l ih =>
      intro st' hl hV hgr hfm' hskew'
      simp only [List.foldl_cons]
      have huV : u < st.V := hl u (List.mem_cons_self u l)
      have hfold := satFold_skew (n := st.V) huV (st'.graph u) st' hV
        (by rw [hgr]; exact hadj u huV) hfm' hskew'
      exact ih _ (fun w hw => hl w (List.mem_cons_of_mem u hw))
        hfold.2.2.1 (hfold.2.2.2.trans hgr) hfold.1 hfold.2.1
  exact hgen (List.range st.V) st (fun u hu => List.mem_range.mp hu) rfl rfl hfm hskew

end MinCostPushRelabel

/-- C5: The skew-symmetry invariant flow[v][u] = -flow[u][v] holds for the
freshly constructed flow matrix of both engines, and is preserved by every
flow-mutating operation: the max-flow engine's push and
initialize_preflow (the latter under the arc contract's exclusion of a
capacitated self-loop at the source), the min-cost engine's push, and
refine's saturation step. -/
theorem C5_skew_invariant :
    (∀ n : Nat, Skew (PushRelabel.init n).flow n ∧
      Skew (MinCostPushRelabel.init n).flow n) ∧
    (∀ (st : PushRelabel.State) (u v : Nat), WFm st.flow st.V → u < st.V → v < st.V →
      Skew st.flow st.V → Skew (PushRelabel.push st u v).flow st.V) ∧
    (∀ (st : PushRelabel.State) (s : Nat), WFm st.flow st.V → s < st.V →
      (∀ v ∈ st.graph s, v < st.V) → mget st.capacity s s = 0 →
      Skew st.flow st.V → Skew (PushRelabel.init_preflow st s).flow st.V) ∧
    (∀ (st : MinCostPushRelabel.State) (u v : Nat), WFm st.flow st.V →
      u < st.V → v < st.V →
      Skew st.flow st.V → Skew (MinCostPushRelabel.push st u v).flow st.V) ∧
    (∀ (st : MinCostPushRelabel.State), WFm st.flow st.V →
      (∀ u, u < st.V → ∀ v ∈ st.graph u, v < st.V) →
      Skew st.flow st.V → Skew (MinCostPushRelabel.refineSaturate st).flow st.V) := by
  refine ⟨?_, ?_, ?_, ?_, ?_⟩
  · intro n
    exact ⟨Skew_zeroM n, Skew_zeroM n⟩
  · intro st u v hfm hu hv hskew
    exact PushRelabel.push_skew hfm hu hv hskew
  · intro st s hfm hs hadj hss hskew
    exact PushRelabel.init_preflow_skew hfm hs hadj hss hskew
  · intro st u v hfm hu hv hskew
    exact MinCostPushRelabel.mc_push_skew hfm hu hv hskew
  · intro st hfm hadj hskew
    exact MinCostPushRelabel.refineSaturate_skew hfm hadj hskew

/-- Witness for C5 at concrete instances: the 2-vertex max-flow engine
with arc (0, 1, 1) and the 2-vertex min-cost engine with arc
(0, 1, cap 1, cost -1). -/
theorem C5_skew_invariant_witness :
    (WFm tiny2.flow tiny2.V ∧ (0 : Nat) < tiny2.V ∧ (1 : Nat) < tiny2.V ∧
      Skew tiny2.flow tiny2.V ∧ mget tiny2.capacity 0 0 = 0 ∧
      WFm mc2.flow mc2.V ∧ Skew mc2.flow mc2.V) ∧
    Skew (PushRelabel.push tiny2 0 1).flow tiny2.V ∧
    Skew (PushRelabel.init_preflow tiny2 0).flow tiny2.V ∧
    Skew (MinCostPushRelabel.push mc2 0 1).flow mc2.V ∧
    Skew (MinCostPushRelabel.refineSaturate mc2).flow mc2.V :=
  ⟨by decide,
    C5_skew_invariant.2.1 tiny2 0 1 (by decide) (by decide) (by decide) (by decide),
    C5_skew_invariant.2.2.1 tiny2 0 (by decide) (by decide) (by decide) (by decide)
      (by decide),
    C5_skew_invariant.2.2.2.1 mc2 0 1 (by decide) (by decide) (by decide) (by decide),
    C5_skew_invariant.2.2.2.2 mc2 (by decide) (by decide) (by decide)⟩

namespace MinCostPushRelabel

theorem relabelFold_le {st : State} {u : Nat} :
    ∀ (l : List Nat) (a m : Rat),
      l.foldl (relabelStep st u) (some a) = some m → m ≤ a
  | [], a, m, h => le_of_eq (Option.some_inj.mp h).symm
  | v :: l, a, m, h => by
    simp only [List.foldl_cons] at h
    unfold relabelStep at h
    by_cases hres : 0 < mget st.capacity u v - mget st.flow u v
    · rw [if_pos hres] at h
      have := relabelFold_le l _ m h
      exact this.trans (min_le_left _ _)
    · rw [if_neg hres] at h
      exact relabelFold_le l _ m h

theorem relabelFold_none {st : State} {u : Nat} :
    ∀ (l : List Nat) (acc : Option Rat),
      l.foldl (relabelStep st u) acc = none →
      acc = none ∧ ∀ v ∈ l, ¬(0 < mget st.capacity u v - mget st.flow u v)
  | [], acc, h => ⟨h, by intro v hv; exact absurd hv (List.not_mem_nil v)⟩
  | v :: l, acc, h => by
    simp only [List.foldl_cons] at h
    have hrest := relabelFold_none l _ h
    have hstep := hrest.1
    unfold relabelStep at hstep
    by_cases hres : 0 < mget st.capacity u v - mget st.flow u v
    · rw [if_pos hres] at hstep
      exfalso
      cases hacc : acc with
      | none => rw [hacc] at hstep; simp at hstep
      | some a => rw [hacc] at hstep; simp at hstep
    · rw [if_neg hres] at hstep
      refine ⟨hstep, ?_⟩
      intro w hw
      rcases List.mem_cons.mp hw with hwv | hwl
      · rw [hwv]; exact hres
      · exact hrest.2 w hwl

theorem relabelFold_bound {st : State} {u : Nat} :
    ∀ (l : List Nat) (acc : Option Rat) (m : Rat),
      l.foldl (relabelStep st u) acc = some m →
      ∀ v ∈ l, 0 < mget st.capacity u v - mget st.flow u v →
        m ≤ relabelCand st u v
  | [], acc, m, h => by intro v hv; exact absurd hv (List.not_mem_nil v)
  | v :: l, acc, m, h => by
    intro w hw hres
    simp only [List.foldl_cons] at h
    rcases List.mem_cons.mp hw with hwv | hwl
    · subst hwv
      unfold relabelStep at h
      rw [if_pos hres] at h
      cases hacc : acc with
      | none =>
        rw [hacc] at h
        exact relabelFold_le l _ m h
      | some a =>
        rw [hacc] at h
        exact (relabelFold_le l _ m h).trans (min_le_right _ _)
    · exact relabelFold_bound l _ m h w hwl hres

theorem relabelFold_attain {st : State} {u : Nat} :
    ∀ (l : List Nat) (acc : Option Rat) (m : Rat),
      l.foldl (relabelStep st u) acc = some m →
      (∃ v ∈ l, 0 < mget st.capacity u v - mget st.flow u v ∧
        m = relabelCand st u v) ∨ acc = some m
  | [], acc, m, h => Or.inr h
  | v :: l, acc, m, h => by
    simp only [List.foldl_cons] at h
    rcases relabelFold_attain l _ m h with htail | hhead
    · rcases htail with ⟨w, hw, hres, heq⟩
      exact Or.inl ⟨w, List.mem_cons_of_mem v hw, hres, heq⟩
    · unfold relabelStep at hhead
      by_cases hres : 0 < mget st.capacity u v - mget st.flow u v
      · rw [if_pos hres] at hhead
        cases hacc : acc with
        | none =>
          rw [hacc] at hhead
          exact Or.inl ⟨v, List.mem_cons_self v l, hres, (Option.some_inj.mp hhead).symm⟩
        | some a =>
          rw [hacc] at hhead
          have hmin := Option.some_inj.mp hhead
          rcases min_cases a (relabelCand st u v) with ⟨hcase, _⟩ | ⟨hcase, _⟩
          · exact Or.inr (congrArg some (hcase.symm.trans hmin))
          · exact Or.inl ⟨v, List.mem_cons_self v l, hres,
              (hcase.symm.trans hmin).symm⟩
      · rw [if_neg hres] at hhead
        exact Or.inr hhead

end MinCostPushRelabel

/-- C7: Whenever refine's discharge loop relabels a vertex u — u has
positive excess, no neighbor arc is admissible (every positive-residual
neighbor arc has nonnegative reduced cost), and at least one neighbor arc
has positive residual capacity — with ε ≥ 1 the new potential[u] equals
the minimum over residual-capacity neighbors v of
(potential[v] − cost[u][v]) minus ε, and this new value is strictly
smaller than the previous potential[u]. -/
theorem C7_relabel_decreases (st : MinCostPushRelabel.State) (u : Nat) (epsilon : Rat)
    (hWF : MinCostPushRelabel.WF st) (hu : u < st.V) (heps : 1 ≤ epsilon)
    (hex : 0 < lgetD st.excess u 0)
    (hres : ∃ v ∈ st.graph u, 0 < mget st.capacity u v - mget st.flow u v)
    (hadm : ∀ v ∈ st.graph u, 0 < mget st.capacity u v - mget st.flow u v →
      0 ≤ MinCostPushRelabel.reduced_cost st u v) :
    ∃ m, (st.graph u).foldl (MinCostPushRelabel.relabelStep st u) none = some m ∧
      (∀ v ∈ st.graph u, 0 < mget st.capacity u v - mget st.flow u v →
        m ≤ pget st.potential v - (mget st.cost u v : Rat)) ∧
      (∃ v ∈ st.graph u, 0 < mget st.capacity u v - mget st.flow u v ∧
        m = pget st.potential v - (mget st.cost u v : Rat)) ∧
      pget (MinCostPushRelabel.relabel st u epsilon).potential u = m - epsilon ∧
      pget (MinCostPushRelabel.relabel st u epsilon).potential u
        < pget st.potential u := by
  cases hfold : (st.graph u).foldl (MinCostPushRelabel.relabelStep st u) none with
  | none =>
    exfalso
    obtain ⟨v, hv, hresv⟩ := hres
    exact (MinCostPushRelabel.relabelFold_none (st.graph u) none hfold).2 v hv hresv
  | some m =>
    have hbound := MinCostPushRelabel.relabelFold_bound (st.graph u) none m hfold
    have hattain : ∃ v ∈ st.graph u, 0 < mget st.capacity u v - mget st.flow u v ∧
        m = MinCostPushRelabel.relabelCand st u v := by
      rcases MinCostPushRelabel.relabelFold_attain (st.graph u) none m hfold with h | h
      · exact h
      · exact absurd h (by simp)
    have hpot : (MinCostPushRelabel.relabel st u epsilon).potential =
        lsetD st.potential u (m - epsilon) := by
      unfold MinCostPushRelabel.relabel
      rw [hfold]
    have hplen : u < st.potential.length := by
      rw [hWF.2.1]
      exact hu
    have hget : pget (MinCostPushRelabel.relabel st u epsilon).potential u
        = m - epsilon := by
      rw [hpot]
      exact lgetD_lsetD_eq _ _ _ _ hplen
    refine ⟨m, rfl, hbound, hattain, hget, ?_⟩
    obtain ⟨v, hv, hresv, heq⟩ := hattain
    have hrc := hadm v hv hresv
    unfold MinCostPushRelabel.reduced_cost at hrc
    have hmle : m ≤ pget st.potential u := by
      rw [heq]
      unfold MinCostPushRelabel.relabelCand
      linarith
    rw [hget]
    linarith

/-- Witness for C7 at a concrete instance: arc (0, 1, cap 1, cost 0),
supply 1 at node 0, ε = 1; the relabel sets potential[0] from 0 to -1. -/
theorem C7_relabel_decreases_witness :
    (MinCostPushRelabel.WF mcRelabel ∧ (0 : Nat) < mcRelabel.V ∧ (1 : Rat) ≤ 1 ∧
      0 < lgetD mcRelabel.excess 0 0 ∧
      (∃ v ∈ mcRelabel.graph 0,
        0 < mget mcRelabel.capacity 0 v - mget mcRelabel.flow 0 v) ∧
      (∀ v ∈ mcRelabel.graph 0,
        0 < mget mcRelabel.capacity 0 v - mget mcRelabel.flow 0 v →
        0 ≤ MinCostPushRelabel.reduced_cost mcRelabel 0 v)) ∧
    (∃ m, (mcRelabel.graph 0).foldl (MinCostPushRelabel.relabelStep mcRelabel 0) none
        = some m ∧
      (∀ v ∈ mcRelabel.graph 0,
        0 < mget mcRelabel.capacity 0 v - mget mcRelabel.flow 0 v →
        m ≤ pget mcRelabel.potential v - (mget mcRelabel.cost 0 v : Rat)) ∧
      (∃ v ∈ mcRelabel.graph 0,
        0 < mget mcRelabel.capacity 0 v - mget mcRelabel.flow 0 v ∧
        m = pget mcRelabel.potential v - (mget mcRelabel.cost 0 v : Rat)) ∧
      pget (MinCostPushRelabel.relabel mcRelabel 0 1).potential 0 = m - 1 ∧
      pget (MinCostPushRelabel.relabel mcRelabel 0 1).potential 0
        < pget mcRelabel.potential 0) := by
  have hg : mcRelabel.graph 0 = [1] := by decide
  have hcost : mget mcRelabel.cost 0 1 = 0 := by decide
  have hp0 : pget mcRelabel.potential 0 = 0 := rfl
  have hp1 : pget mcRelabel.potential 1 = 0 := rfl
  have hadm : ∀ v ∈ mcRelabel.graph 0,
      0 < mget mcRelabel.capacity 0 v - mget mcRelabel.flow 0 v →
      0 ≤ MinCostPushRelabel.reduced_cost mcRelabel 0 v := by
    intro v hv hres
    rw [hg] at hv
    rw [List.eq_of_mem_singleton hv]
    unfold MinCostPushRelabel.reduced_cost
    rw [hcost, hp0, hp1]
    norm_num
  exact ⟨⟨by decide, by decide, by norm_num, by decide, by decide, hadm⟩,
    C7_relabel_decreases mcRelabel 0 1 (by decide) (by decide) (by norm_num)
      (by decide) (by decide) hadm⟩

namespace MinCostPushRelabel

theorem scaleStep_fields (u : Nat) (acc : State × Int) (v : Nat) :
    (scaleStep u acc v).1.V = acc.1.V ∧
    (scaleStep u acc v).1.graph = acc.1.graph ∧
    (scaleStep u acc v).1.cost =
      mset acc.1.cost u v (mget acc.1.cost u v * (acc.1.V : Int)) :=
  ⟨rfl, rfl, rfl⟩

theorem scaleFold_inner {n : Nat} {u : Nat} (hu : u < n) :
    ∀ (l : List Nat) (acc : State × Int), acc.1.V = n → WFm acc.1.cost n →
      (∀ v ∈ l, v < n) → l.Nodup →
      (l.foldl (scaleStep u) acc).1.V = n ∧
      (l.foldl (scaleStep u) acc).1.graph = acc.1.graph ∧
      WFm (l.foldl (scaleStep u) acc).1.cost n ∧
      (∀ v ∈ l, mget (l.foldl (scaleStep u) acc).1.cost u v
        = mget acc.1.cost u v * (n : Int)) ∧
      (∀ a b, (a ≠ u ∨ b ∉ l) →
        mget (l.foldl (scaleStep u) acc).1.cost a b = mget acc.1.cost a b)
  | [], acc, hV, hWF, _, _ =>
    ⟨hV, rfl, hWF, by intro v hv; exact absurd hv (List.not_mem_nil v),
      fun a b _ => rfl⟩
  | v :: l, acc, hV, hWF, hl, hnd => by
    simp only [List.foldl_cons]
    have hvn : v < n := hl v (List.mem_cons_self v l)
    have hstep := scaleStep_fields u acc v
    have hrec := scaleFold_inner hu l (scaleStep u acc v)
      (hstep.1.trans hV)
      (by rw [hstep.2.2]; exact WFm_mset hWF hu _)
      (fun w hw => hl w (List.mem_cons_of_mem v hw))
      (List.Nodup.of_cons hnd)
    refine ⟨hrec.1, hrec.2.1.trans hstep.2.1, hrec.2.2.1, ?_, ?_⟩
    · intro w hw
      rcases List.mem_cons.mp hw with hwv | hwl
      · subst hwv
        have hvl : w ∉ l := (List.nodup_cons.mp hnd).1
        rw [hrec.2.2.2.2 u w (Or.inr hvl), hstep.2.2,
          mget_mset_eq hWF hu hvn _, hV]
      · rw [hrec.2.2.2.1 w hwl, hstep.2.2,
          mget_mset_ne _ _ _ _ _ _ (Or.inr (fun hh =>
            (List.nodup_cons.mp hnd).1 (by rw [← hh]; exact hwl)))]
    · intro a b hab
      have hb : a ≠ u ∨ b ∉ l := by
        rcases hab with h | h
        · exact Or.inl h
        · exact Or.inr (fun hh => h (List.mem_cons_of_mem v hh))
      have hbv : a ≠ u ∨ b ≠ v := by
        rcases hab with h | h
        · exact Or.inl h
        · exact Or.inr (fun hh => h (hh ▸ List.mem_cons_self v l))
      rw [hrec.2.2.2.2 a b hb, hstep.2.2, mget_mset_ne _ _ _ _ _ _ hbv]

end MinCostPushRelabel

namespace MinCostPushRelabel

theorem scaleFold_outer {n : Nat} {g0 : Nat → List Nat}
    (hadj : ∀ u, u < n → ∀ v ∈ g0 u, v < n)
    (hnd : ∀ u, u < n → (g0 u).Nodup) :
    ∀ (L : List Nat) (acc : State × Int), acc.1.V = n → acc.1.graph = g0 →
      WFm acc.1.cost n → (∀ u ∈ L, u < n) → L.Nodup →
      (L.foldl (fun acc u => (acc.1.graph u).foldl (scaleStep u) acc) acc).1.V = n ∧
      (L.foldl (fun acc u => (acc.1.graph u).foldl (scaleStep u) acc) acc).1.graph = g0 ∧
      WFm (L.foldl (fun acc u => (acc.1.graph u).foldl (scaleStep u) acc) acc).1.cost n ∧
      (∀ u ∈ L, ∀ v ∈ g0 u,
        mget (L.foldl (fun acc u => (acc.1.graph u).foldl (scaleStep u) acc) acc).1.cost u v
          = mget acc.1.cost u v * (n : Int)) ∧
      (∀ a b, a ∉ L →
        mget (L.foldl (fun acc u => (acc.1.graph u).foldl (scaleStep u) acc) acc).1.cost a b
          = mget acc.1.cost a b)
  | [], acc, hV, hgr, hWF, _, _ =>
    ⟨hV, hgr, hWF, by intro u hu; exact absurd hu (List.not_mem_nil u),
      fun a b _ => rfl⟩
  | u :: L, acc, hV, hgr, hWF, hL, hnodup => by
    simp only [List.foldl_cons]
    have hun : u < n := hL u (List.mem_cons_self u L)
    have hinner := scaleFold_inner hun (acc.1.graph u) acc hV hWF
      (by rw [hgr]; exact hadj u hun) (by rw [hgr]; exact hnd u hun)
    have hrec := scaleFold_outer hadj hnd L _ hinner.1
      (hinner.2.1.trans hgr) hinner.2.2.1
      (fun w hw => hL w (List.mem_cons_of_mem u hw))
      (List.Nodup.of_cons hnodup)
    refine ⟨hrec.1, hrec.2.1, hrec.2.2.1, ?_, ?_⟩
    · intro w hw v hv
      rcases List.mem_cons.mp hw with hwu | hwL
      · subst hwu
        have hwl : w ∉ L := (List.nodup_cons.mp hnodup).1
        rw [hrec.2.2.2.2 w v hwl, hinner.2.2.2.1 v (by rw [hgr]; exact hv)]
      · have hwu : w ≠ u := fun hh =>
          (List.nodup_cons.mp hnodup).1 (by rw [← hh]; exact hwL)
        rw [hrec.2.2.2.1 w hwL v hv, hinner.2.2.2.2 w v (Or.inl hwu)]
    · intro a b ha
      have hau : a ≠ u := fun hh => ha (by rw [hh]; exact List.mem_cons_self u L)
      have haL : a ∉ L := fun hh => ha (List.mem_cons_of_mem u hh)
      rw [hrec.2.2.2.2 a b haL, hinner.2.2.2.2 a b (Or.inl hau)]

theorem scaleCosts_spec {st : State} (hWF : WFm st.cost st.V)
    (hadj : ∀ u, u < st.V → ∀ v ∈ st.graph u, v < st.V)
    (hnd : ∀ u, u < st.V → (st.graph u).Nodup) :
    (scaleCosts st).1.V = st.V ∧ (scaleCosts st).1.graph = st.graph ∧
    WFm (scaleCosts st).1.cost st.V ∧
    ∀ u, u < st.V → ∀ v ∈ st.graph u,
      mget (scaleCosts st).1.cost u v = mget st.cost u v * (st.V : Int) := by
  unfold scaleCosts
  have h := scaleFold_outer hadj hnd (List.range st.V) (st, 0) rfl rfl hWF
    (fun u hu => List.mem_range.mp hu) (List.nodup_range st.V)
  exact ⟨h.1, h.2.1, h.2.2.1,
    fun u hu v hv => h.2.2.2.1 u (List.mem_range.mpr hu) v hv⟩

end MinCostPushRelabel

/-- C10: Every invocation of min_cost_flow multiplies every stored arc
cost (the entries cost[u][v] for every u and every neighbor v in graph[u],
which after add_edge includes both the forward and the reverse entry of
each arc) by V in place before the feasibility phase and never restores
the original values: the engine's cost matrix is left scaled even though
the call fails (it raises TypeError at the g.max_flow() line), and a
second invocation on the same instance operates on — and leaves — V²-scaled
costs. -/
theorem C10_cost_scaling_in_place (st : MinCostPushRelabel.State) (alpha : Rat)
    (hWF : WFm st.cost st.V)
    (hadj : ∀ u, u < st.V → ∀ v ∈ st.graph u, v < st.V)
    (hnd : ∀ u, u < st.V → (st.graph u).Nodup) :
    (MinCostPushRelabel.min_cost_flow st alpha).1 = Except.error PyErr.typeError ∧
    (∀ u, u < st.V → ∀ v ∈ st.graph u,
      mget (MinCostPushRelabel.min_cost_flow st alpha).2.cost u v
        = mget st.cost u v * (st.V : Int)) ∧
    (∀ u, u < st.V → ∀ v ∈ st.graph u,
      mget (MinCostPushRelabel.min_cost_flow
          (MinCostPushRelabel.min_cost_flow st alpha).2 alpha).2.cost u v
        = mget st.cost u v * (st.V : Int) * (st.V : Int)) := by
  have hspec := MinCostPushRelabel.scaleCosts_spec hWF hadj hnd
  have hst1 : (MinCostPushRelabel.min_cost_flow st alpha).2 =
      (MinCostPushRelabel.scaleCosts st).1 := rfl
  refine ⟨rfl, ?_, ?_⟩
  · intro u hu v hv
    rw [hst1]
    exact hspec.2.2.2 u hu v hv
  · intro u hu v hv
    have hV1 : (MinCostPushRelabel.min_cost_flow st alpha).2.V = st.V := by
      rw [hst1]; exact hspec.1
    have hgr1 : (MinCostPushRelabel.min_cost_flow st alpha).2.graph = st.graph := by
      rw [hst1]; exact hspec.2.1
    have hWF1 : WFm (MinCostPushRelabel.min_cost_flow st alpha).2.cost
        (MinCostPushRelabel.min_cost_flow st alpha).2.V := by
      rw [hst1, hspec.1]; exact hspec.2.2.1
    have hadj1 : ∀ u, u < (MinCostPushRelabel.min_cost_flow st alpha).2.V →
        ∀ v ∈ (MinCostPushRelabel.min_cost_flow st alpha).2.graph u,
          v < (MinCostPushRelabel.min_cost_flow st alpha).2.V := by
      rw [hV1, hgr1]; exact hadj
    have hnd1 : ∀ u, u < (MinCostPushRelabel.min_cost_flow st alpha).2.V →
        ((MinCostPushRelabel.min_cost_flow st alpha).2.graph u).Nodup := by
      rw [hV1, hgr1]; exact hnd
    have hspec1 := MinCostPushRelabel.scaleCosts_spec hWF1 hadj1 hnd1
    have hst2 : (MinCostPushRelabel.min_cost_flow
        (MinCostPushRelabel.min_cost_flow st alpha).2 alpha).2 =
      (MinCostPushRelabel.scaleCosts (MinCostPushRelabel.min_cost_flow st alpha).2).1 := rfl
    rw [hst2, hspec1.2.2.2 u (by rw [hV1]; exact hu) v (by rw [hgr1]; exact hv),
      hV1, hst1, hspec.2.2.2 u hu v hv]

/-- Witness for C10 at a concrete instance: the 2-vertex engine with arc
(0, 1, cap 1, cost -1); one call scales cost[0][1] to -2, a second to -4,
and both calls raise TypeError. -/
theorem C10_cost_scaling_in_place_witness :
    ((0 : Nat) < mc2.V ∧ (1 : Nat) ∈ mc2.graph 0 ∧ WFm mc2.cost mc2.V ∧
      mget mc2.cost 0 1 = -1) ∧
    (MinCostPushRelabel.min_cost_flow mc2 2).1 = Except.error PyErr.typeError ∧
    mget (MinCostPushRelabel.min_cost_flow mc2 2).2.cost 0 1
      = mget mc2.cost 0 1 * (mc2.V : Int) ∧
    mget (MinCostPushRelabel.min_cost_flow
        (MinCostPushRelabel.min_cost_flow mc2 2).2 2).2.cost 0 1
      = mget mc2.cost 0 1 * (mc2.V : Int) * (mc2.V : Int) :=
  ⟨by decide,
    (C10_cost_scaling_in_place mc2 2 (by decide) (by decide) (by decide)).1,
    (C10_cost_scaling_in_place mc2 2 (by decide) (by decide) (by decide)).2.1
      0 (by decide) 1 (by decide),
    (C10_cost_scaling_in_place mc2 2 (by decide) (by decide) (by decide)).2.2
      0 (by decide) 1 (by decide)⟩
